import Mathlib

set_option maxHeartbeats 1000000

/-!
Verification development for the cl4py host-to-Lisp bridge.

The session driver is embedded from src/cl4py/lisp.py (the method Lisp.eval).
The textual reader and writer modules and the plain data classes are not part
of the sources at hand, so they are modelled from the specification where a
claim needs them; each such definition carries a doc comment saying so.
-/

namespace Cl4py

/-! Character constants are written through their code points so the
development sticks to plain identifiers throughout. -/

def dquoteChar : Char := Char.ofNat 34

def backslashChar : Char := Char.ofNat 92

def newlineChar : Char := Char.ofNat 10

def tabChar : Char := Char.ofNat 9

def isDelim (c : Char) : Bool :=
  c = ' ' || c = '(' || c = ')' || c = dquoteChar || c = newlineChar || c = tabChar

def isWs (c : Char) : Bool :=
  c = ' ' || c = newlineChar || c = tabChar

def skipWs : List Char → List Char
  | [] => []
  | c :: cs => if isWs c then skipWs cs else c :: cs

def takeToken : List Char → List Char × List Char
  | [] => ([], [])
  | c :: cs =>
      if isDelim c then ([], c :: cs)
      else
        let r := takeToken cs
        (c :: r.1, r.2)

def isDigitChar (c : Char) : Bool :=
  48 ≤ c.toNat && c.toNat ≤ 57

def digitVal (c : Char) : Nat := c.toNat - 48

def natChars (n : Nat) : List Char :=
  if n < 10 then [Nat.digitChar n]
  else natChars (n / 10) ++ [Nat.digitChar (n % 10)]
termination_by n
decreasing_by exact Nat.div_lt_self (by omega) (by omega)

def intChars : Int → List Char
  | Int.ofNat n => natChars n
  | Int.negSucc m => '-' :: natChars (m + 1)

def natFromDigits (cs : List Char) : Nat :=
  cs.foldl (fun a c => a * 10 + digitVal c) 0

def intFromToken : List Char → Option Int
  | [] => none
  | c :: rest =>
      if c = '-' then
        if !rest.isEmpty && rest.all isDigitChar then
          some (-(natFromDigits rest : Int))
        else none
      else if c = '+' then
        if !rest.isEmpty && rest.all isDigitChar then
          some ((natFromDigits rest : Int))
        else none
      else if (c :: rest).all isDigitChar then
        some ((natFromDigits (c :: rest) : Int))
      else none

/-- A floating value in the decimal form the modelled reader and writer
exchange: an optional minus sign, the digits of the integer part (possibly
none), and the digits of the fractional part. The spec mandates floating
values without fixing their machine representation, so the atom is carried
in this exact syntactic form and round-trips structurally. -/
structure FloatVal where
  neg : Bool
  ip : List Nat
  frac : List Nat
deriving DecidableEq, Repr

def digitChars (ds : List Nat) : List Char := ds.map Nat.digitChar

/-- The serialized form of a floating value: sign, integer digits, the
decimal point, fractional digits. -/
def floatChars (f : FloatVal) : List Char :=
  (if f.neg then ['-'] else []) ++ digitChars f.ip ++ '.' :: digitChars f.frac

def splitAtDot : List Char → Option (List Char × List Char)
  | [] => none
  | c :: cs =>
      if c = '.' then some ([], cs)
      else
        match splitAtDot cs with
        | some pn => some (c :: pn.1, pn.2)
        | none => none

/-- Checks the two sides of the decimal point of a candidate float token:
the integer part is all digits (possibly empty), the fractional part is
nonempty and all digits. -/
def checkParts (pn : List Char × List Char) : Option (List Nat × List Nat) :=
  if pn.1.all isDigitChar && !pn.2.isEmpty && pn.2.all isDigitChar then
    some (pn.1.map digitVal, pn.2.map digitVal)
  else none

def floatParts (body : List Char) : Option (List Nat × List Nat) :=
  (splitAtDot body).bind checkParts

/-- Modelled from the spec: recognition of a floating value token, at the
minimum the spec requires of the reader (reader.py is not under src/): an
optional sign, optional integer digits, a decimal point, and at least one
fractional digit. -/
def floatFromToken : List Char → Option FloatVal
  | [] => none
  | c :: rest =>
      if c = '-' then
        (floatParts rest).map (fun pq => ⟨true, pq.1, pq.2⟩)
      else if c = '+' then
        (floatParts rest).map (fun pq => ⟨false, pq.1, pq.2⟩)
      else
        (floatParts (c :: rest)).map (fun pq => ⟨false, pq.1, pq.2⟩)

/-- A qualified symbol: a name together with its owning package. -/
structure Symbol where
  name : String
  pkg : String
deriving DecidableEq, Repr

/-- Modelled from the spec: the textual rendering of a qualified symbol
depends on both the name and the namespace (the data classes are not under
src/, only the spec describes their rendering). -/
def Symbol.render (s : Symbol) : String :=
  if s.pkg = "" then s.name else s.pkg ++ "::" ++ s.name

/-- Modelled from the spec: the pythonified name of a symbol used when a host
type is synthesized for it. The exact transformation is irrelevant to the
claims; only that it is a function of the symbol matters. -/
def Symbol.hostName (s : Symbol) : String := s.name

/-- Host-side values produced by the reader: atoms, qualified symbols, and
paired-cell list structure, with the empty list a distinguished singleton. -/
inductive LObj where
  | nil
  | int (n : Int)
  | float (f : FloatVal)
  | str (s : String)
  | sym (s : Symbol)
  | cons (car cdr : LObj)
deriving DecidableEq, Repr

/-! The writer, modelled from the spec (writer.py is not under src/):
atoms print as themselves, strings with escaping of the quote and escape
characters, symbols qualified unless their package is the current one,
lists in parenthesized form with dotted tails. -/

def escapeChars : List Char → List Char
  | [] => []
  | c :: cs =>
      if c = dquoteChar || c = backslashChar then backslashChar :: c :: escapeChars cs
      else c :: escapeChars cs

/-- Modelled from the spec: symbol serialization distinguishes keyword
symbols by their namespace, abbreviates symbols of the current package, and
otherwise prints PACKAGE:NAME. -/
def printSym (cur : String) (s : Symbol) : List Char :=
  if s.pkg = "KEYWORD" then ':' :: s.name.data
  else if s.pkg = cur then s.name.data
  else s.pkg.data ++ ':' :: s.name.data

mutual

/-- Modelled from the spec: serialization of a reader-level value into the
engine syntax (writer.py is not under src/). -/
def printObj (cur : String) : LObj → List Char
  | LObj.nil => ['(', ')']
  | LObj.int n => intChars n
  | LObj.float f => floatChars f
  | LObj.str s => dquoteChar :: (escapeChars s.data ++ [dquoteChar])
  | LObj.sym s => printSym cur s
  | LObj.cons a d => '(' :: (printObj cur a ++ printTail cur d)

/-- Modelled from the spec: serialization of the tail of a paired-cell
chain, closing proper lists with a parenthesis and printing dotted tails. -/
def printTail (cur : String) : LObj → List Char
  | LObj.nil => [')']
  | LObj.cons a d => ' ' :: (printObj cur a ++ printTail cur d)
  | x => ' ' :: '.' :: ' ' :: (printObj cur x ++ [')'])

end

def splitAtColon : List Char → Option (List Char × List Char)
  | [] => none
  | c :: cs =>
      if c = ':' then some ([], cs)
      else
        match splitAtColon cs with
        | some pn => some (c :: pn.1, pn.2)
        | none => none

/-- Modelled from the spec: classification of a reader token as an integer,
a keyword symbol, a package-qualified symbol, or a symbol of the current
package (reader.py is not under src/). -/
def classify (cur : String) (tok : List Char) : LObj :=
  match intFromToken tok with
  | some n => LObj.int n
  | none =>
      match floatFromToken tok with
      | some f => LObj.float f
      | none =>
          match tok with
          | [] => LObj.sym ⟨String.mk [], cur⟩
          | c :: rest =>
              if c = ':' then LObj.sym ⟨String.mk rest, "KEYWORD"⟩
              else
                match splitAtColon (c :: rest) with
                | some pn => LObj.sym ⟨String.mk pn.2, String.mk pn.1⟩
                | none => LObj.sym ⟨String.mk (c :: rest), cur⟩

def parseStrAux : List Char → Option (List Char × List Char)
  | [] => none
  | c :: cs =>
      if c = dquoteChar then some ([], cs)
      else if c = backslashChar then
        match cs with
        | [] => none
        | d :: ds =>
            match parseStrAux ds with
            | some sr => some (d :: sr.1, sr.2)
            | none => none
      else
        match parseStrAux cs with
        | some sr => some (c :: sr.1, sr.2)
        | none => none

def startsDelim : List Char → Bool
  | [] => true
  | c :: _ => isDelim c

mutual

/-- Modelled from the spec: the reader, parsing one textual expression from
a character stream and leaving the rest of the stream untouched (reader.py
is not under src/). Recursion is bounded by explicit fuel. -/
def parseExpr (cur : String) : Nat → List Char → Option (LObj × List Char)
  | 0, _ => none
  | Nat.succ fuel, cs =>
      match skipWs cs with
      | [] => none
      | c :: rest =>
          if c = '(' then parseTail cur fuel rest
          else if c = dquoteChar then
            match parseStrAux rest with
            | some sr => some (LObj.str (String.mk sr.1), sr.2)
            | none => none
          else if c = ')' then none
          else
            let t := takeToken (c :: rest)
            if t.1 = [] then none else some (classify cur t.1, t.2)

/-- Modelled from the spec: parsing of the remainder of a parenthesized
list, supporting proper and dotted chains. -/
def parseTail (cur : String) : Nat → List Char → Option (LObj × List Char)
  | 0, _ => none
  | Nat.succ fuel, cs =>
      match skipWs cs with
      | [] => none
      | c :: rest =>
          if c = ')' then some (LObj.nil, rest)
          else if c = '.' && startsDelim rest then
            match parseExpr cur fuel rest with
            | some xr =>
                match skipWs xr.2 with
                | c2 :: r2 => if c2 = ')' then some (xr.1, r2) else none
                | [] => none
            | none => none
          else
            match parseExpr cur fuel (c :: rest) with
            | some ar =>
                match parseTail cur fuel ar.2 with
                | some dr => some (LObj.cons ar.1 dr.1, dr.2)
                | none => none
            | none => none

end

/-- Parse one expression, with fuel ample for any input of this length. -/
def readObj (cur : String) (cs : List Char) : Option (LObj × List Char) :=
  parseExpr cur (2 * cs.length + 2) cs

mutual

/-- Fuel sufficient for parseExpr to parse the printed form of a value. -/
def esize : LObj → Nat
  | LObj.cons a d => esize a + tsize d + 2
  | _ => 2

/-- Fuel sufficient for parseTail to parse the printed tail of a chain. -/
def tsize : LObj → Nat
  | LObj.nil => 1
  | LObj.cons a d => esize a + tsize d + 1
  | x => esize x + 1

end

def okChar (c : Char) : Bool := !(isDelim c) && !(c = ':')

def okTok (cs : List Char) : Bool := !cs.isEmpty && cs.all okChar

/-- A symbol whose printed token reads back as the same symbol: the name is
a nonempty token free of delimiters and colons, does not look like an
integer, is not the dot marker, and the package is likewise a clean token. -/
def wfSym (s : Symbol) : Bool :=
  okTok s.name.data && (intFromToken s.name.data).isNone &&
    (floatFromToken s.name.data).isNone &&
    !(s.name = ".") && okTok s.pkg.data

/-- A floating value in the canonical form the writer emits: every digit
below ten and at least one fractional digit. -/
def wfFloat (f : FloatVal) : Bool :=
  f.ip.all (fun d => d < 10) && !f.frac.isEmpty && f.frac.all (fun d => d < 10)

/-- Values representable in both syntaxes, for the round-trip property:
every atom in the structure, dotted tails included, is clean. -/
def wfObj : LObj → Bool
  | LObj.nil => true
  | LObj.int _ => true
  | LObj.float f => wfFloat f
  | LObj.str _ => true
  | LObj.sym s => wfSym s
  | LObj.cons a d => wfObj a && wfObj d

/-! Session state and the evaluation driver, embedded from Lisp.eval in
src/cl4py/lisp.py. Python dictionaries become insertion-ordered association
lists; class objects and wrapper instances are identified by counters, since
two calls of the host type constructor always yield distinct class objects. -/

def assocLookup {α β : Type} [DecidableEq α] : List (α × β) → α → Option β
  | [], _ => none
  | kv :: rest, a => if kv.1 = a then some kv.2 else assocLookup rest a

def assocSet {α β : Type} [DecidableEq α] : List (α × β) → α → β → List (α × β)
  | [], a, b => [(a, b)]
  | kv :: rest, a, b => if kv.1 = a then (a, b) :: rest else kv :: assocSet rest a b

def assocAppend {α : Type} [DecidableEq α] : List (α × List Nat) → α → Nat → List (α × List Nat)
  | [], a, i => [(a, [i])]
  | kv :: rest, a, i =>
      if kv.1 = a then (kv.1, kv.2 ++ [i]) :: rest else kv :: assocAppend rest a i

/-- The per-connection state of Lisp.eval: the current package, the
symbol-to-synthesized-class cache, the method tables of synthesized classes,
the pending unpatched instances, the class assignment of each wrapper
instance, and the counters handing out fresh class and instance identities. -/
structure SessionState where
  package : LObj
  classes : List (Symbol × Nat)
  classMethods : List (Nat × List (Symbol × Nat))
  unpatched : List (Symbol × List Nat)
  instClass : List (Nat × Nat)
  nextClsId : Nat
  nextInstId : Nat
deriving DecidableEq, Repr

def initialState : SessionState :=
  { package := LObj.str "COMMON-LISP-USER", classes := [], classMethods := []
    unpatched := [], instClass := [], nextClsId := 0, nextInstId := 0 }

/-- The four values of one response frame, in the order they are read:
package, result, condition, captured output. -/
structure Frame where
  pkg : LObj
  val : LObj
  err : LObj
  output : LObj
deriving DecidableEq, Repr

/-- The host-level value Lisp.eval returns: no value, one value, a tuple of
values, or the pair of an interpreted result and the captured output. -/
inductive PyVal where
  | none
  | val (v : LObj)
  | tup (vs : List LObj)
  | pair (r : PyVal) (output : LObj)
deriving DecidableEq, Repr

/-- The observable identity of the dynamically constructed error raised for
an engine condition: the fresh class object, its name, its base class, and
the message it carries. -/
structure RaisedError where
  clsId : Nat
  clsName : String
  base : String
  message : LObj
deriving DecidableEq, Repr

/-- How one eval call ends: a returned value, a raised condition error, or a
host-side attribute failure on a malformed frame. -/
inductive Outcome where
  | ok (v : PyVal)
  | raised (e : RaisedError)
  | crash
deriving DecidableEq, Repr

/-- Python truthiness of a reader value, as used by the condition-message
extraction in Lisp.eval. -/
def pyTruthy : LObj → Bool
  | LObj.nil => false
  | LObj.str s => !s.isEmpty
  | LObj.int n => !(n = 0)
  | LObj.float f => !(f.ip.all (fun d => d = 0) && f.frac.all (fun d => d = 0))
  | _ => true

def pyCar : LObj → Option LObj
  | LObj.cons a _ => some a
  | _ => none

/-- Elements yielded by iterating a paired-cell chain, as tuple(val) does:
cars along the chain while the node is a paired cell. -/
def listElems : LObj → List LObj
  | LObj.cons a d => a :: listElems d
  | _ => []

def isProperList : LObj → Bool
  | LObj.nil => true
  | LObj.cons _ d => isProperList d
  | _ => false

/-- The result interpretation at the end of Lisp.eval: the empty list is no
value, a one-element list is its sole element, a longer list is the tuple of
its elements; a non-list result has no cdr attribute and fails. -/
def interpret : LObj → Option PyVal
  | LObj.nil => some PyVal.none
  | LObj.cons a LObj.nil => some (PyVal.val a)
  | LObj.cons a d => some (PyVal.tup (a :: listElems d))
  | _ => none

/-- Modelled from the spec: the str() rendering of a reader value, used for
the dynamically constructed error class name (the data classes are not under
src/). -/
def lobjStr : LObj → String
  | LObj.nil => "()"
  | LObj.int n => toString n
  | LObj.float f => String.mk (floatChars f)
  | LObj.str s => s
  | LObj.sym s => s.render
  | LObj.cons a d => "(" ++ lobjStr a ++ " . " ++ lobjStr d ++ ")"

/-- One step of the resolution loop in Lisp.eval: synthesize a fresh host
class for the type symbol, record it in the cache, query the engine for the
class information, attach the member functions, and patch every pending
instance of that symbol. The second component accumulates the symbols whose
operations were queried. -/
def resolveOne (ci : Symbol → List (Symbol × Nat)) (acc : SessionState × List Symbol)
    (item : Symbol × List Nat) : SessionState × List Symbol :=
  let st := acc.1
  let cid := st.nextClsId
  let st1 : SessionState :=
    { st with
      nextClsId := cid + 1
      classes := assocSet st.classes item.1 cid
      classMethods := assocSet st.classMethods cid (ci item.1)
      instClass := item.2.foldl (fun m i => assocSet m i cid) st.instClass }
  (st1, acc.2 ++ [item.1])

/-- The resolution pass of Lisp.eval: snapshot and clear the pending map,
then resolve each entry in order. -/
def resolvePass (ci : Symbol → List (Symbol × Nat)) (st : SessionState) :
    SessionState × List Symbol :=
  st.unpatched.foldl (resolveOne ci) ({ st with unpatched := [] }, [])

/-- Lisp.eval after the four frame values have been read: update the
package, echo the output if requested, raise a freshly classed error on a
condition, otherwise resolve pending foreign types and interpret the result,
pairing it with the output when requested. -/
def evalStep (ci : Symbol → List (Symbol × Nat)) (st : SessionState) (f : Frame)
    (returnOut printOut : Bool) :
    SessionState × Option LObj × Outcome × List Symbol :=
  let st1 := { st with package := f.pkg }
  let printed := if printOut then some f.output else none
  match f.err with
  | LObj.cons condition rest =>
      if pyTruthy rest then
        match pyCar rest with
        | some m =>
            ({ st1 with nextClsId := st1.nextClsId + 1 }, printed,
              Outcome.raised
                ⟨st1.nextClsId, lobjStr condition, "RuntimeError", m⟩, [])
        | none => (st1, printed, Outcome.crash, [])
      else
        ({ st1 with nextClsId := st1.nextClsId + 1 }, printed,
          Outcome.raised
            ⟨st1.nextClsId, lobjStr condition, "RuntimeError", LObj.str ""⟩, [])
  | _ =>
      let r := resolvePass ci st1
      let out :=
        match interpret f.val with
        | some v => if returnOut then Outcome.ok (PyVal.pair v f.output) else Outcome.ok v
        | none => Outcome.crash
      (r.1, printed, out, r.2)

def stateOf (o : SessionState × Option LObj × Outcome × List Symbol) : SessionState := o.1

def printedOf (o : SessionState × Option LObj × Outcome × List Symbol) : Option LObj := o.2.1

def outcomeOf (o : SessionState × Option LObj × Outcome × List Symbol) : Outcome := o.2.2.1

def queriesOf (o : SessionState × Option LObj × Outcome × List Symbol) : List Symbol := o.2.2.2

def raisedOf (o : SessionState × Option LObj × Outcome × List Symbol) : Option RaisedError :=
  match outcomeOf o with
  | Outcome.raised e => some e
  | _ => none

/-- Modelled from the spec: the reader-side registration of a foreign object
reference (reader.py is not under src/). When the synthesized class of the
reported type symbol is already cached, the new instance is created with
that class directly; otherwise a placeholder is recorded in the pending map
for the next resolution pass. Returns the new state and the instance. -/
def registerForeign (st : SessionState) (tySym : Symbol) : SessionState × Nat :=
  let i := st.nextInstId
  let st1 := { st with nextInstId := i + 1 }
  match assocLookup st.classes tySym with
  | some cid => ({ st1 with instClass := assocSet st1.instClass i cid }, i)
  | none => ({ st1 with unpatched := assocAppend st1.unpatched tySym i }, i)

/-! The outbound side: host expressions and their serialization, and the
wire-level shape of one eval call. -/

/-- A host-side expression handed to eval: a reader-level value, a boolean,
a quoted form, a call-form tuple, or a plain host list. -/
inductive PyObj where
  | obj (v : LObj)
  | bool (b : Bool)
  | quoted (e : PyObj)
  | call (op : PyObj) (args : List PyObj)
  | listOf (elems : List PyObj)

def quoteChar : Char := Char.ofNat 39

mutual

/-- Modelled from the spec: the writer lispify (writer.py is not under
src/). A call-form tuple serializes as a parenthesized list with the
operator first; a quote wrapper prefixes the serialized payload with the
quote marker; booleans map to the canonical truth and false literals; a
plain host list serializes as a plain list. -/
def lispify (cur : String) : PyObj → List Char
  | PyObj.obj v => printObj cur v
  | PyObj.bool true => ['T']
  | PyObj.bool false => ['(', ')']
  | PyObj.quoted e => quoteChar :: lispify cur e
  | PyObj.call op args => '(' :: (lispify cur op ++ lispifyRest cur args) ++ [')']
  | PyObj.listOf [] => ['(', ')']
  | PyObj.listOf (e :: es) => '(' :: (lispify cur e ++ lispifyRest cur es) ++ [')']

/-- Remaining elements of a serialized list, each preceded by a space. -/
def lispifyRest (cur : String) : List PyObj → List Char
  | [] => []
  | e :: es => ' ' :: lispify cur e ++ lispifyRest cur es

end

/-- The package name used by the writer for symbol abbreviation, extracted
from the package value the engine last reported. -/
def pkgName : LObj → String
  | LObj.str s => s
  | LObj.sym s => s.name
  | _ => ""

def newlineStr : String := String.mk [newlineChar]

/-- Reading one expression from the inbound stream of parsed values. -/
def readOne : List LObj → Option (LObj × List LObj)
  | [] => none
  | x :: xs => some (x, xs)

/-- One whole call of Lisp.eval at the wire level: the lines written to the
outbound stream, and on a full frame the evaluation outcome together with
the part of the inbound stream left unconsumed. -/
structure CallResult where
  written : List String
  reply : Option ((SessionState × Option LObj × Outcome × List Symbol) × List LObj)

/-- Lisp.eval embedded at the wire level: write the one serialized request
line, then read the four frame values in order and run the evaluation step
on them. A stream shorter than four expressions is a transport failure. -/
def evalCall (ci : Symbol → List (Symbol × Nat)) (st : SessionState) (expr : PyObj)
    (returnOut printOut : Bool) (stream : List LObj) : CallResult :=
  let line := String.mk (lispify (pkgName st.package) expr) ++ newlineStr
  match readOne stream with
  | none => ⟨[line], none⟩
  | some (pkg, s1) =>
    match readOne s1 with
    | none => ⟨[line], none⟩
    | some (val, s2) =>
      match readOne s2 with
      | none => ⟨[line], none⟩
      | some (err, s3) =>
        match readOne s3 with
        | none => ⟨[line], none⟩
        | some (output, s4) =>
          ⟨[line], some (evalStep ci st ⟨pkg, val, err, output⟩ returnOut printOut, s4)⟩

/-! Association-list lemmas used by the resolution-pass proofs. -/

theorem assocLookup_assocSet_self {α β : Type} [DecidableEq α]
    (m : List (α × β)) (k : α) (v : β) :
    assocLookup (assocSet m k v) k = some v := by
  induction m with
  | nil => simp [assocSet, assocLookup]
  | cons kv rest ih =>
      rw [assocSet]
      split
      · rw [assocLookup]; simp
      · rw [assocLookup]
        next hne => simp [hne, ih]

theorem assocLookup_assocSet_ne {α β : Type} [DecidableEq α]
    (m : List (α × β)) (k : α) (v : β) (i : α) (hne : i ≠ k) :
    assocLookup (assocSet m k v) i = assocLookup m i := by
  induction m with
  | nil => simp [assocSet, assocLookup, Ne.symm hne]
  | cons kv rest ih =>
      rw [assocSet]
      split
      · next heq =>
          rw [assocLookup, assocLookup, heq]
          simp [Ne.symm hne]
      · rw [assocLookup, assocLookup, ih]

theorem assocLookup_assocSet_isSome {α β : Type} [DecidableEq α]
    (m : List (α × β)) (k : α) (v : β) (i : α)
    (h : i = k ∨ assocLookup m i ≠ none) :
    assocLookup (assocSet m k v) i ≠ none := by
  by_cases hik : i = k
  · subst hik; rw [assocLookup_assocSet_self]; simp
  · rw [assocLookup_assocSet_ne m k v i hik]
    rcases h with h | h
    · exact absurd h hik
    · exact h

theorem assocLookup_mem {α β : Type} [DecidableEq α]
    (m : List (α × β)) (k : α) (v : β) (h : assocLookup m k = some v) :
    (k, v) ∈ m := by
  induction m with
  | nil => simp [assocLookup] at h
  | cons kv rest ih =>
      rw [assocLookup] at h
      split at h
      · next heq =>
          have hv : kv.2 = v := by injection h
          have : kv = (k, v) := by
            cases kv
            simp only [Prod.mk.injEq]
            exact ⟨heq, hv⟩
          rw [← this]
          exact List.mem_cons_self _ _
      · exact List.mem_cons_of_mem _ (ih h)

theorem assocLookup_none_not_mem_keys {α β : Type} [DecidableEq α]
    (m : List (α × β)) (k : α) (h : assocLookup m k = none) :
    ¬ k ∈ m.map Prod.fst := by
  induction m with
  | nil => simp
  | cons kv rest ih =>
      rw [assocLookup] at h
      split at h
      · simp at h
      · next hne =>
          simp only [List.map_cons, List.mem_cons]
          rintro (heq | hmem)
          · exact hne heq.symm
          · exact ih h hmem

/-! Facts about the resolution pass. -/

theorem patch_foldl_isSome (cid : Nat) (insts : List Nat) :
    ∀ (m : List (Nat × Nat)) (i : Nat),
      (i ∈ insts ∨ assocLookup m i ≠ none) →
      assocLookup (insts.foldl (fun m j => assocSet m j cid) m) i ≠ none := by
  induction insts with
  | nil =>
      intro m i h
      rcases h with h | h
      · simp at h
      · simpa using h
  | cons j js ih =>
      intro m i h
      rw [List.foldl_cons]
      apply ih
      rcases h with h | h
      · rcases List.mem_cons.mp h with heq | hmem
        · right; exact assocLookup_assocSet_isSome m j cid i (Or.inl heq)
        · left; exact hmem
      · right; exact assocLookup_assocSet_isSome m j cid i (Or.inr h)

theorem foldl_resolveOne_package (ci : Symbol → List (Symbol × Nat))
    (items : List (Symbol × List Nat)) :
    ∀ acc, ((items.foldl (resolveOne ci) acc).1).package = acc.1.package := by
  induction items with
  | nil => intro acc; rfl
  | cons it its ih => intro acc; rw [List.foldl_cons, ih]; rfl

theorem foldl_resolveOne_unpatched (ci : Symbol → List (Symbol × Nat))
    (items : List (Symbol × List Nat)) :
    ∀ acc, ((items.foldl (resolveOne ci) acc).1).unpatched = acc.1.unpatched := by
  induction items with
  | nil => intro acc; rfl
  | cons it its ih => intro acc; rw [List.foldl_cons, ih]; rfl

theorem foldl_resolveOne_queries (ci : Symbol → List (Symbol × Nat))
    (items : List (Symbol × List Nat)) :
    ∀ acc, (items.foldl (resolveOne ci) acc).2 = acc.2 ++ items.map Prod.fst := by
  induction items with
  | nil => intro acc; simp
  | cons it its ih =>
      intro acc
      rw [List.foldl_cons, ih]
      simp [resolveOne]

theorem foldl_resolveOne_classes_notmem (ci : Symbol → List (Symbol × Nat))
    (items : List (Symbol × List Nat)) (T : Symbol) :
    ∀ acc, ¬ T ∈ items.map Prod.fst →
      assocLookup ((items.foldl (resolveOne ci) acc).1).classes T =
        assocLookup acc.1.classes T := by
  induction items with
  | nil => intro acc _; rfl
  | cons it its ih =>
      intro acc hmem
      simp only [List.map_cons, List.mem_cons] at hmem
      push_neg at hmem
      rw [List.foldl_cons, ih _ hmem.2]
      show assocLookup (assocSet acc.1.classes it.1 acc.1.nextClsId) T = _
      exact assocLookup_assocSet_ne _ _ _ _ hmem.1

theorem foldl_resolveOne_patches (ci : Symbol → List (Symbol × Nat))
    (items : List (Symbol × List Nat)) :
    ∀ acc (i : Nat),
      ((∃ T insts, (T, insts) ∈ items ∧ i ∈ insts) ∨
        assocLookup acc.1.instClass i ≠ none) →
      assocLookup ((items.foldl (resolveOne ci) acc).1).instClass i ≠ none := by
  induction items with
  | nil =>
      intro acc i h
      rcases h with ⟨T, insts, hmem, _⟩ | h
      · simp at hmem
      · simpa using h
  | cons it its ih =>
      intro acc i h
      rw [List.foldl_cons]
      apply ih
      rcases h with ⟨T, insts, hmem, hi⟩ | h
      · rcases List.mem_cons.mp hmem with heq | hmem2
        · right
          show assocLookup (it.2.foldl (fun m j => assocSet m j acc.1.nextClsId)
            acc.1.instClass) i ≠ none
          apply patch_foldl_isSome
          left
          have : it.2 = insts := by rw [← heq]
          rw [this]
          exact hi
        · left; exact ⟨T, insts, hmem2, hi⟩
      · right
        show assocLookup (it.2.foldl (fun m j => assocSet m j acc.1.nextClsId)
          acc.1.instClass) i ≠ none
        exact patch_foldl_isSome _ _ _ _ (Or.inr h)

theorem resolvePass_package (ci : Symbol → List (Symbol × Nat)) (st : SessionState) :
    ((resolvePass ci st).1).package = st.package := by
  rw [resolvePass, foldl_resolveOne_package]

theorem resolvePass_unpatched (ci : Symbol → List (Symbol × Nat)) (st : SessionState) :
    ((resolvePass ci st).1).unpatched = [] := by
  rw [resolvePass, foldl_resolveOne_unpatched]

theorem resolvePass_queries (ci : Symbol → List (Symbol × Nat)) (st : SessionState) :
    (resolvePass ci st).2 = st.unpatched.map Prod.fst := by
  rw [resolvePass, foldl_resolveOne_queries]
  simp

theorem unpatched_empty_update (st : SessionState) (h : st.unpatched = []) :
    { st with unpatched := ([] : List (Symbol × List Nat)) } = st := by
  cases st
  simp only at h
  simp [h]

/-! Shape lemmas about the evaluation step. -/

theorem success_state (ci : Symbol → List (Symbol × Nat)) (st : SessionState) (f : Frame)
    (ro po : Bool) (hf : f.err = LObj.nil) :
    stateOf (evalStep ci st f ro po) = (resolvePass ci { st with package := f.pkg }).1 ∧
    queriesOf (evalStep ci st f ro po) = (resolvePass ci { st with package := f.pkg }).2 := by
  constructor <;> simp [evalStep, hf, stateOf, queriesOf]

theorem cond_no_ok (ci : Symbol → List (Symbol × Nat)) (st : SessionState) (f : Frame)
    (ro po : Bool) (c r : LObj) (hc : f.err = LObj.cons c r) :
    ∀ v, outcomeOf (evalStep ci st f ro po) ≠ Outcome.ok v := by
  intro v
  cases ht : pyTruthy r
  · simp [evalStep, hc, ht, outcomeOf]
  · cases hm : pyCar r <;> simp [evalStep, hc, ht, hm, outcomeOf]

theorem raised_shape (ci : Symbol → List (Symbol × Nat)) (st : SessionState) (f : Frame)
    (ro po : Bool) (e : RaisedError)
    (h : raisedOf (evalStep ci st f ro po) = some e) :
    e.clsId = st.nextClsId ∧
    (stateOf (evalStep ci st f ro po)).nextClsId = st.nextClsId + 1 ∧
    e.base = "RuntimeError" ∧
    (∀ c r, f.err = LObj.cons c r → e.clsName = lobjStr c) := by
  cases hf : f.err with
  | cons c r =>
      cases ht : pyTruthy r with
      | false =>
          simp [evalStep, hf, ht, raisedOf, outcomeOf, stateOf] at h ⊢
          rw [← h]
          simp [lobjStr]
      | true =>
          cases hm : pyCar r with
          | some m =>
              simp [evalStep, hf, ht, hm, raisedOf, outcomeOf, stateOf] at h ⊢
              rw [← h]
              simp [lobjStr]
          | none =>
              simp [evalStep, hf, ht, hm, raisedOf, outcomeOf] at h
  | nil =>
      rcases hi : interpret f.val with _ | v <;>
        cases ro <;> simp [evalStep, hf, hi, raisedOf, outcomeOf] at h
  | int n =>
      rcases hi : interpret f.val with _ | v <;>
        cases ro <;> simp [evalStep, hf, hi, raisedOf, outcomeOf] at h
  | float f2 =>
      rcases hi : interpret f.val with _ | v <;>
        cases ro <;> simp [evalStep, hf, hi, raisedOf, outcomeOf] at h
  | str s =>
      rcases hi : interpret f.val with _ | v <;>
        cases ro <;> simp [evalStep, hf, hi, raisedOf, outcomeOf] at h
  | sym s =>
      rcases hi : interpret f.val with _ | v <;>
        cases ro <;> simp [evalStep, hf, hi, raisedOf, outcomeOf] at h

theorem interpret_isSome (v : LObj) (hp : isProperList v = true) :
    ∃ pv, interpret v = some pv := by
  cases v with
  | nil => exact ⟨_, rfl⟩
  | cons a d => cases d <;> exact ⟨_, rfl⟩
  | int n => simp [isProperList] at hp
  | float f => simp [isProperList] at hp
  | str s => simp [isProperList] at hp
  | sym s => simp [isProperList] at hp

/-! The claim theorems. -/

/-- C1: for a successful evaluation call (the condition frame is the
empty-list singleton), eval interprets the result frame as: the empty list
yields no value, a one-element proper list yields its sole element, and a
proper list of two or more elements yields the tuple of exactly those
elements in order. -/
theorem eval_success_result_interpretation
    (ci : Symbol → List (Symbol × Nat)) (st : SessionState) (f : Frame) (po : Bool)
    (hc : f.err = LObj.nil) (hp : isProperList f.val = true) :
    (f.val = LObj.nil →
      outcomeOf (evalStep ci st f false po) = Outcome.ok PyVal.none) ∧
    (∀ a, f.val = LObj.cons a LObj.nil →
      outcomeOf (evalStep ci st f false po) = Outcome.ok (PyVal.val a)) ∧
    (∀ a b t, f.val = LObj.cons a (LObj.cons b t) →
      outcomeOf (evalStep ci st f false po) =
        Outcome.ok (PyVal.tup (a :: b :: listElems t))) := by
  refine ⟨?_, ?_, ?_⟩
  · intro hv; simp [evalStep, hc, hv, outcomeOf, interpret]
  · intro a hv; simp [evalStep, hc, hv, outcomeOf, interpret]
  · intro a b t hv; simp [evalStep, hc, hv, outcomeOf, interpret, listElems]

/-- Witness for C1: a two-value result frame maps to the ordered pair of
values. -/
theorem eval_success_result_interpretation_witness :
    isProperList (LObj.cons (LObj.int 1) (LObj.cons (LObj.int 2) LObj.nil)) = true ∧
    outcomeOf (evalStep (fun _ => []) initialState
        ⟨LObj.str "P", LObj.cons (LObj.int 1) (LObj.cons (LObj.int 2) LObj.nil),
          LObj.nil, LObj.str ""⟩ false false) =
      Outcome.ok (PyVal.tup [LObj.int 1, LObj.int 2]) :=
  ⟨by decide,
    (eval_success_result_interpretation (fun _ => []) initialState
        ⟨LObj.str "P", LObj.cons (LObj.int 1) (LObj.cons (LObj.int 2) LObj.nil),
          LObj.nil, LObj.str ""⟩ false rfl (by decide)).2.2
      (LObj.int 1) (LObj.int 2) LObj.nil rfl⟩

/-- C2: a non-empty paired condition frame makes eval raise instead of
returning: the error's class name derives from the condition-type value, its
message is the one carried in the rest slot and defaults to the empty string
when the rest slot is the empty list, and successive raises carry distinct
fresh class identities. -/
theorem eval_condition_raises
    (ci : Symbol → List (Symbol × Nat)) (st : SessionState) (f : Frame)
    (ro po : Bool) (condSym : Symbol) (rest : LObj)
    (hc : f.err = LObj.cons (LObj.sym condSym) rest) :
    (rest = LObj.nil →
      raisedOf (evalStep ci st f ro po) =
        some ⟨st.nextClsId, condSym.render, "RuntimeError", LObj.str ""⟩) ∧
    (∀ m r2, rest = LObj.cons m r2 →
      raisedOf (evalStep ci st f ro po) =
        some ⟨st.nextClsId, condSym.render, "RuntimeError", m⟩) ∧
    (∀ v, outcomeOf (evalStep ci st f ro po) ≠ Outcome.ok v) ∧
    (∀ (f2 : Frame) (e1 e2 : RaisedError),
      raisedOf (evalStep ci st f ro po) = some e1 →
      raisedOf (evalStep ci (stateOf (evalStep ci st f ro po)) f2 ro po) = some e2 →
      e1.clsId ≠ e2.clsId) := by
  refine ⟨?_, ?_, cond_no_ok ci st f ro po _ _ hc, ?_⟩
  · intro hr
    simp [evalStep, hc, hr, pyTruthy, raisedOf, outcomeOf, lobjStr, Symbol.render]
  · intro m r2 hr
    simp [evalStep, hc, hr, pyTruthy, pyCar, raisedOf, outcomeOf, lobjStr, Symbol.render]
  · intro f2 e1 e2 he1 he2
    obtain ⟨h1, h1n, -, -⟩ := raised_shape ci st f ro po e1 he1
    obtain ⟨h2, -, -, -⟩ := raised_shape ci _ f2 ro po e2 he2
    omega

/-- Witness for C2: a condition frame with type symbol and message raises
the dynamically named error carrying that message. -/
theorem eval_condition_raises_witness :
    raisedOf (evalStep (fun _ => []) initialState
        ⟨LObj.str "P", LObj.nil,
          LObj.cons (LObj.sym ⟨"E", "CL"⟩) (LObj.cons (LObj.str "boom") LObj.nil),
          LObj.str ""⟩ false false) =
      some ⟨0, Symbol.render ⟨"E", "CL"⟩, "RuntimeError", LObj.str "boom"⟩ :=
  (eval_condition_raises (fun _ => []) initialState
      ⟨LObj.str "P", LObj.nil,
        LObj.cons (LObj.sym ⟨"E", "CL"⟩) (LObj.cons (LObj.str "boom") LObj.nil),
        LObj.str ""⟩ false false ⟨"E", "CL"⟩
      (LObj.cons (LObj.str "boom") LObj.nil) rfl).2.1
    (LObj.str "boom") LObj.nil rfl

/-- C4: every eval call writes exactly one serialized expression followed by
one newline to the outbound stream and then reads exactly four expressions
from the inbound stream, in the fixed order package, result, condition,
output, whatever the arity of the result value. -/
theorem eval_framing_four_reads
    (ci : Symbol → List (Symbol × Nat)) (st : SessionState) (expr : PyObj)
    (ro po : Bool) (s0 s1 s2 s3 : LObj) (rest : List LObj) :
    evalCall ci st expr ro po (s0 :: s1 :: s2 :: s3 :: rest) =
      ⟨[String.mk (lispify (pkgName st.package) expr) ++ newlineStr],
        some (evalStep ci st ⟨s0, s1, s2, s3⟩ ro po, rest)⟩ := rfl

/-- C5: after every completed frame, whatever the outcome, the recorded
current package equals the first of the four frame values. -/
theorem eval_updates_package
    (ci : Symbol → List (Symbol × Nat)) (st : SessionState) (f : Frame) (ro po : Bool) :
    (stateOf (evalStep ci st f ro po)).package = f.pkg := by
  cases hf : f.err with
  | cons c r =>
      cases ht : pyTruthy r
      · simp [evalStep, hf, ht, stateOf]
      · cases hm : pyCar r <;> simp [evalStep, hf, ht, hm, stateOf]
  | nil => simp [evalStep, hf, stateOf, resolvePass_package]
  | int n => simp [evalStep, hf, stateOf, resolvePass_package]
  | float f2 => simp [evalStep, hf, stateOf, resolvePass_package]
  | str s => simp [evalStep, hf, stateOf, resolvePass_package]
  | sym s => simp [evalStep, hf, stateOf, resolvePass_package]

/-- C8: on a successful call, the return-output option turns the return
value into the pair of the interpreted result (under the same empty, one,
many rule) and the output text, and the print-output option echoes the
output text. -/
theorem eval_return_output_option
    (ci : Symbol → List (Symbol × Nat)) (st : SessionState) (f : Frame) (po : Bool)
    (hc : f.err = LObj.nil) (hp : isProperList f.val = true) :
    (∃ rv, outcomeOf (evalStep ci st f false po) = Outcome.ok rv ∧
      outcomeOf (evalStep ci st f true po) = Outcome.ok (PyVal.pair rv f.output)) ∧
    printedOf (evalStep ci st f false true) = some f.output ∧
    printedOf (evalStep ci st f false false) = none := by
  obtain ⟨pv, hi⟩ := interpret_isSome f.val hp
  refine ⟨⟨pv, ?_, ?_⟩, ?_, ?_⟩ <;>
    simp [evalStep, hc, hi, outcomeOf, printedOf]

/-- Witness for C8: a one-value success frame returns the pair of the value
and the output when requested. -/
theorem eval_return_output_option_witness :
    outcomeOf (evalStep (fun _ => []) initialState
        ⟨LObj.str "P", LObj.cons (LObj.int 7) LObj.nil, LObj.nil, LObj.str "hi"⟩
        true false) =
      Outcome.ok (PyVal.pair (PyVal.val (LObj.int 7)) (LObj.str "hi")) := by
  obtain ⟨⟨rv, h1, h2⟩, -, -⟩ :=
    eval_return_output_option (fun _ => []) initialState
      ⟨LObj.str "P", LObj.cons (LObj.int 7) LObj.nil, LObj.nil, LObj.str "hi"⟩
      false rfl (by decide)
  have : rv = PyVal.val (LObj.int 7) := by
    have := h1
    simp [evalStep, outcomeOf, interpret] at this
    exact this.symm
  rw [← this]
  exact h2

/-- C9: every condition error is an instance of a subclass of RuntimeError
whose class name is the string rendering of the condition-type symbol, and
the class object is created freshly at each raise, so even two conditions
with the same type symbol raise under distinct class identities. -/
theorem condition_class_fresh_identity
    (ci : Symbol → List (Symbol × Nat)) (st : SessionState) (f1 f2 : Frame)
    (ro po : Bool) (T : Symbol) (r1 r2 : LObj)
    (h1 : f1.err = LObj.cons (LObj.sym T) r1)
    (h2 : f2.err = LObj.cons (LObj.sym T) r2)
    (e1 e2 : RaisedError)
    (he1 : raisedOf (evalStep ci st f1 ro po) = some e1)
    (he2 : raisedOf (evalStep ci (stateOf (evalStep ci st f1 ro po)) f2 ro po) = some e2) :
    e1.base = "RuntimeError" ∧ e2.base = "RuntimeError" ∧
    e1.clsName = Symbol.render T ∧ e2.clsName = Symbol.render T ∧
    e1.clsId ≠ e2.clsId := by
  obtain ⟨k1, k1n, b1, n1⟩ := raised_shape ci st f1 ro po e1 he1
  obtain ⟨k2, -, b2, n2⟩ := raised_shape ci _ f2 ro po e2 he2
  refine ⟨b1, b2, ?_, ?_, ?_⟩
  · rw [n1 _ _ h1]; rfl
  · rw [n2 _ _ h2]; rfl
  · omega

/-- Witness for C9: two successive raises of the same condition type get
distinct class identities and the same rendered class name. -/
theorem condition_class_fresh_identity_witness :
    (Frame.mk (LObj.str "P") LObj.nil
        (LObj.cons (LObj.sym ⟨"E", "CL"⟩) LObj.nil) (LObj.str "")).err =
      LObj.cons (LObj.sym ⟨"E", "CL"⟩) LObj.nil ∧
    (⟨0, Symbol.render ⟨"E", "CL"⟩, "RuntimeError", LObj.str ""⟩ : RaisedError).clsId ≠
      (⟨1, Symbol.render ⟨"E", "CL"⟩, "RuntimeError", LObj.str ""⟩ : RaisedError).clsId :=
  ⟨rfl,
    (condition_class_fresh_identity (fun _ => []) initialState
        ⟨LObj.str "P", LObj.nil, LObj.cons (LObj.sym ⟨"E", "CL"⟩) LObj.nil, LObj.str ""⟩
        ⟨LObj.str "P", LObj.nil, LObj.cons (LObj.sym ⟨"E", "CL"⟩) LObj.nil, LObj.str ""⟩
        false false ⟨"E", "CL"⟩ LObj.nil LObj.nil rfl rfl
        ⟨0, Symbol.render ⟨"E", "CL"⟩, "RuntimeError", LObj.str ""⟩
        ⟨1, Symbol.render ⟨"E", "CL"⟩, "RuntimeError", LObj.str ""⟩
        (by decide) (by decide)).2.2.2.2⟩

/-- C10: with the print option set, the output text of the frame is echoed
even when the call goes on to raise for an engine condition. -/
theorem print_output_before_raise
    (ci : Symbol → List (Symbol × Nat)) (st : SessionState) (f : Frame) (ro : Bool)
    (c r : LObj) (hc : f.err = LObj.cons c r) :
    printedOf (evalStep ci st f ro true) = some f.output ∧
    (∀ v, outcomeOf (evalStep ci st f ro true) ≠ Outcome.ok v) := by
  refine ⟨?_, cond_no_ok ci st f ro true _ _ hc⟩
  cases ht : pyTruthy r
  · simp [evalStep, hc, ht, printedOf]
  · cases hm : pyCar r <;> simp [evalStep, hc, ht, hm, printedOf]

/-- Witness for C10: the output of a raising frame is still echoed. -/
theorem print_output_before_raise_witness :
    printedOf (evalStep (fun _ => []) initialState
        ⟨LObj.str "P", LObj.nil, LObj.cons (LObj.sym ⟨"E", "CL"⟩) LObj.nil,
          LObj.str "captured"⟩ false true) =
      some (LObj.str "captured") :=
  (print_output_before_raise (fun _ => []) initialState
      ⟨LObj.str "P", LObj.nil, LObj.cons (LObj.sym ⟨"E", "CL"⟩) LObj.nil,
        LObj.str "captured"⟩ false (LObj.sym ⟨"E", "CL"⟩) LObj.nil rfl).1

/-- C6: a raising call performs no result interpretation and no foreign
type resolution: the class cache, the method tables, the pending map and the
instance assignments are untouched and no operations query is issued, so the
placeholders recorded during the failed frame are still pending and a later
successful frame's resolution pass patches them. -/
theorem eval_condition_no_resolution
    (ci : Symbol → List (Symbol × Nat)) (st : SessionState) (f : Frame)
    (ro po : Bool) (c r : LObj) (hc : f.err = LObj.cons c r) :
    (stateOf (evalStep ci st f ro po)).classes = st.classes ∧
    (stateOf (evalStep ci st f ro po)).classMethods = st.classMethods ∧
    (stateOf (evalStep ci st f ro po)).unpatched = st.unpatched ∧
    (stateOf (evalStep ci st f ro po)).instClass = st.instClass ∧
    queriesOf (evalStep ci st f ro po) = [] ∧
    (∀ v, outcomeOf (evalStep ci st f ro po) ≠ Outcome.ok v) ∧
    (∀ (f2 : Frame) (T : Symbol) (insts : List Nat) (i : Nat),
      f2.err = LObj.nil → assocLookup st.unpatched T = some insts → i ∈ insts →
      assocLookup
        (stateOf (evalStep ci (stateOf (evalStep ci st f ro po)) f2 ro po)).instClass
        i ≠ none) := by
  have hraise : (stateOf (evalStep ci st f ro po)).classes = st.classes ∧
      (stateOf (evalStep ci st f ro po)).classMethods = st.classMethods ∧
      (stateOf (evalStep ci st f ro po)).unpatched = st.unpatched ∧
      (stateOf (evalStep ci st f ro po)).instClass = st.instClass ∧
      queriesOf (evalStep ci st f ro po) = [] := by
    cases ht : pyTruthy r
    · simp [evalStep, hc, ht, stateOf, queriesOf]
    · cases hm : pyCar r <;> simp [evalStep, hc, ht, hm, stateOf, queriesOf]
  obtain ⟨h1, h2, h3, h4, h5⟩ := hraise
  refine ⟨h1, h2, h3, h4, h5, cond_no_ok ci st f ro po _ _ hc, ?_⟩
  intro f2 T insts i hf2 hTi hi
  obtain ⟨hst, -⟩ := success_state ci (stateOf (evalStep ci st f ro po)) f2 ro po hf2
  rw [hst, resolvePass]
  apply foldl_resolveOne_patches
  left
  refine ⟨T, insts, ?_, hi⟩
  show (T, insts) ∈ ({ stateOf (evalStep ci st f ro po) with package := f2.pkg }).unpatched
  have : ({ stateOf (evalStep ci st f ro po) with package := f2.pkg }).unpatched =
      st.unpatched := h3
  rw [this]
  exact assocLookup_mem _ _ _ hTi

/-- Witness for C6: an instance pending under a type symbol survives a
raising frame and is patched by the next successful frame. -/
theorem eval_condition_no_resolution_witness :
    assocLookup
      (stateOf (evalStep (fun _ => [])
        (stateOf (evalStep (fun _ => [])
          { initialState with unpatched := [(⟨"BOX", "CL"⟩, [7])] }
          ⟨LObj.str "P", LObj.nil, LObj.cons (LObj.sym ⟨"E", "CL"⟩) LObj.nil,
            LObj.str ""⟩ false false))
        ⟨LObj.str "P", LObj.nil, LObj.nil, LObj.str ""⟩ false false)).instClass 7 ≠
      none :=
  (eval_condition_no_resolution (fun _ => [])
      { initialState with unpatched := [(⟨"BOX", "CL"⟩, [7])] }
      ⟨LObj.str "P", LObj.nil, LObj.cons (LObj.sym ⟨"E", "CL"⟩) LObj.nil, LObj.str ""⟩
      false false (LObj.sym ⟨"E", "CL"⟩) LObj.nil rfl).2.2.2.2.2.2
    ⟨LObj.str "P", LObj.nil, LObj.nil, LObj.str ""⟩ ⟨"BOX", "CL"⟩ [7] 7 rfl rfl
    (by decide)

/-- C3: once a type symbol is in the synthesized-type cache, a new instance
of it is patched immediately from the cache by the reader, no new host type
is created and no operations query is issued for it on the next successful
frame, the cached entry survives, and the resolution pass is idempotent. -/
theorem cached_type_patch_immediate
    (ci : Symbol → List (Symbol × Nat)) (st : SessionState) (T : Symbol) (cid : Nat)
    (f : Frame) (ro po : Bool)
    (hcache : assocLookup st.classes T = some cid)
    (hpending : assocLookup st.unpatched T = none)
    (hf : f.err = LObj.nil) :
    assocLookup (registerForeign st T).1.instClass (registerForeign st T).2 = some cid ∧
    (registerForeign st T).1.unpatched = st.unpatched ∧
    (registerForeign st T).1.classes = st.classes ∧
    (registerForeign st T).1.nextClsId = st.nextClsId ∧
    ¬ T ∈ queriesOf (evalStep ci st f ro po) ∧
    assocLookup (stateOf (evalStep ci st f ro po)).classes T = some cid ∧
    resolvePass ci (resolvePass ci st).1 = ((resolvePass ci st).1, []) := by
  have hnotkey : ¬ T ∈ st.unpatched.map Prod.fst :=
    assocLookup_none_not_mem_keys _ _ hpending
  obtain ⟨hst, hq⟩ := success_state ci st f ro po hf
  refine ⟨?_, ?_, ?_, ?_, ?_, ?_, ?_⟩
  · simp [registerForeign, hcache, assocLookup_assocSet_self]
  · simp [registerForeign, hcache]
  · simp [registerForeign, hcache]
  · simp [registerForeign, hcache]
  · rw [hq, resolvePass_queries]
    exact hnotkey
  · rw [hst, resolvePass, foldl_resolveOne_classes_notmem ci _ T _ hnotkey]
    exact hcache
  · have hemp : ((resolvePass ci st).1).unpatched = [] := resolvePass_unpatched ci st
    rw [resolvePass, hemp]
    simp only [List.foldl_nil]
    rw [unpatched_empty_update _ hemp]

/-- Witness for C3: with BOX cached, a fresh BOX instance is patched from
the cache at once and the next frame issues no query for BOX. -/
theorem cached_type_patch_immediate_witness :
    assocLookup
      (registerForeign { initialState with classes := [(⟨"BOX", "CL"⟩, 5)] }
        ⟨"BOX", "CL"⟩).1.instClass
      (registerForeign { initialState with classes := [(⟨"BOX", "CL"⟩, 5)] }
        ⟨"BOX", "CL"⟩).2 = some 5 ∧
    ¬ (⟨"BOX", "CL"⟩ : Symbol) ∈ queriesOf (evalStep (fun _ => [])
        { initialState with classes := [(⟨"BOX", "CL"⟩, 5)] }
        ⟨LObj.str "P", LObj.nil, LObj.nil, LObj.str ""⟩ false false) :=
  ⟨(cached_type_patch_immediate (fun _ => [])
      { initialState with classes := [(⟨"BOX", "CL"⟩, 5)] } ⟨"BOX", "CL"⟩ 5
      ⟨LObj.str "P", LObj.nil, LObj.nil, LObj.str ""⟩ false false rfl rfl rfl).1,
    (cached_type_patch_immediate (fun _ => [])
      { initialState with classes := [(⟨"BOX", "CL"⟩, 5)] } ⟨"BOX", "CL"⟩ 5
      ⟨LObj.str "P", LObj.nil, LObj.nil, LObj.str ""⟩ false false rfl rfl rfl).2.2.2.2.1⟩

/-! Lemmas for the reader-writer round trip, leading to C7. -/

theorem not_ws_of_not_delim (c : Char) (h : isDelim c = false) : isWs c = false := by
  simp only [isDelim, Bool.or_eq_false_iff, decide_eq_false_iff_not] at h
  simp only [isWs, Bool.or_eq_false_iff, decide_eq_false_iff_not]
  tauto

theorem not_delim_facts (c : Char) (h : isDelim c = false) :
    c ≠ ' ' ∧ c ≠ '(' ∧ c ≠ ')' ∧ c ≠ dquoteChar ∧ c ≠ newlineChar ∧ c ≠ tabChar := by
  simp only [isDelim, Bool.or_eq_false_iff, decide_eq_false_iff_not] at h
  tauto

theorem okChar_facts (c : Char) (h : okChar c = true) :
    isDelim c = false ∧ c ≠ ':' := by
  simp only [okChar, Bool.and_eq_true, Bool.not_eq_true', decide_eq_false_iff_not] at h
  exact h

theorem skipWs_not_ws (c : Char) (cs : List Char) (h : isWs c = false) :
    skipWs (c :: cs) = c :: cs := by
  simp [skipWs, h]

theorem skipWs_ws (c : Char) (cs : List Char) (h : isWs c = true) :
    skipWs (c :: cs) = skipWs cs := by
  simp [skipWs, h]

theorem parseExpr_ws (cur : String) (m : Nat) (c : Char) (cs : List Char)
    (h : isWs c = true) :
    parseExpr cur m (c :: cs) = parseExpr cur m cs := by
  cases m with
  | zero => rfl
  | succ k => rw [parseExpr, parseExpr, skipWs_ws c cs h]

theorem parseTail_ws (cur : String) (m : Nat) (c : Char) (cs : List Char)
    (h : isWs c = true) :
    parseTail cur m (c :: cs) = parseTail cur m cs := by
  cases m with
  | zero => rfl
  | succ k => rw [parseTail, parseTail, skipWs_ws c cs h]

theorem takeToken_append (tok rest : List Char)
    (hall : tok.all (fun c => !(isDelim c)) = true) (hrest : startsDelim rest = true) :
    takeToken (tok ++ rest) = (tok, rest) := by
  induction tok with
  | nil =>
      cases rest with
      | nil => rfl
      | cons c cs =>
          simp only [startsDelim] at hrest
          simp [takeToken, hrest]
  | cons c cs ih =>
      simp only [List.all_cons, Bool.and_eq_true, Bool.not_eq_true'] at hall
      simp [takeToken, hall.1, ih hall.2]

theorem digitChar_digit (d : Nat) (h : d < 10) : isDigitChar (Nat.digitChar d) = true := by
  interval_cases d <;> decide

theorem digitVal_digitChar (d : Nat) (h : d < 10) : digitVal (Nat.digitChar d) = d := by
  interval_cases d <;> decide

theorem digit_not_delim (c : Char) (h : isDigitChar c = true) : isDelim c = false := by
  have h1 : c ≠ ' ' := fun e => absurd h (by rw [e]; decide)
  have h2 : c ≠ '(' := fun e => absurd h (by rw [e]; decide)
  have h3 : c ≠ ')' := fun e => absurd h (by rw [e]; decide)
  have h4 : c ≠ dquoteChar := fun e => absurd h (by rw [e]; decide)
  have h5 : c ≠ newlineChar := fun e => absurd h (by rw [e]; decide)
  have h6 : c ≠ tabChar := fun e => absurd h (by rw [e]; decide)
  simp [isDelim, h1, h2, h3, h4, h5, h6]

theorem digit_ne_minus (c : Char) (h : isDigitChar c = true) : c ≠ '-' :=
  fun e => absurd h (by rw [e]; decide)

theorem digit_ne_dot (c : Char) (h : isDigitChar c = true) : c ≠ '.' :=
  fun e => absurd h (by rw [e]; decide)

theorem digit_ne_plus (c : Char) (h : isDigitChar c = true) : c ≠ '+' :=
  fun e => absurd h (by rw [e]; decide)

theorem natFromDigits_append (xs : List Char) (c : Char) :
    natFromDigits (xs ++ [c]) = 10 * natFromDigits xs + digitVal c := by
  simp [natFromDigits, List.foldl_append]
  omega

theorem natChars_spec (n : Nat) :
    (natChars n).all isDigitChar = true ∧ natChars n ≠ [] ∧
      natFromDigits (natChars n) = n := by
  induction n using Nat.strong_induction_on with
  | _ n ih =>
    by_cases h : n < 10
    · rw [natChars, if_pos h]
      refine ⟨?_, by simp, ?_⟩
      · simp [digitChar_digit n h]
      · simp [natFromDigits, digitVal_digitChar n h]
    · rw [natChars, if_neg h]
      obtain ⟨ha, hne, hv⟩ := ih (n / 10) (Nat.div_lt_self (by omega) (by omega))
      have hd : n % 10 < 10 := Nat.mod_lt _ (by omega)
      refine ⟨?_, by simp, ?_⟩
      · simp [List.all_append, ha, digitChar_digit _ hd]
      · rw [natFromDigits_append, hv, digitVal_digitChar _ hd]
        omega

theorem all_digit_not_delim (cs : List Char) (h : cs.all isDigitChar = true) :
    cs.all (fun c => !(isDelim c)) = true := by
  simp only [List.all_eq_true] at h ⊢
  intro c hc
  simp [digit_not_delim c (h c hc)]

theorem intChars_ne_nil (k : Int) : intChars k ≠ [] := by
  cases k with
  | ofNat n => exact (natChars_spec n).2.1
  | negSucc m => simp [intChars]

theorem intChars_not_delim (k : Int) :
    (intChars k).all (fun c => !(isDelim c)) = true := by
  cases k with
  | ofNat n => exact all_digit_not_delim _ (natChars_spec n).1
  | negSucc m =>
      rw [intChars]
      simp only [List.all_cons, Bool.and_eq_true]
      exact ⟨by decide, all_digit_not_delim _ (natChars_spec (m + 1)).1⟩

theorem intFromToken_intChars (k : Int) : intFromToken (intChars k) = some k := by
  cases k with
  | ofNat n =>
      obtain ⟨ha, hne, hv⟩ := natChars_spec n
      rw [intChars]
      cases hc : natChars n with
      | nil => exact absurd hc hne
      | cons c cs =>
          rw [hc] at ha hv
          simp only [List.all_cons, Bool.and_eq_true] at ha
          rw [intFromToken, if_neg (digit_ne_minus c ha.1),
            if_neg (digit_ne_plus c ha.1)]
          rw [if_pos (by simp [List.all_cons, ha.1, ha.2])]
          rw [hv]
          rfl
  | negSucc m =>
      obtain ⟨ha, hne, hv⟩ := natChars_spec (m + 1)
      rw [intChars, intFromToken, if_pos rfl]
      rw [if_pos (by simp [List.all_cons, ha, List.isEmpty_eq_true, hne])]
      rw [hv]
      simp [Int.negSucc_eq]

theorem classify_intChars (cur : String) (k : Int) :
    classify cur (intChars k) = LObj.int k := by
  rw [classify.eq_def, intFromToken_intChars]

theorem intFromToken_colon (xs ys : List Char) :
    intFromToken (xs ++ ':' :: ys) = none := by
  have hcolon : isDigitChar ':' = false := by decide
  cases xs with
  | nil =>
      rw [List.nil_append, intFromToken, if_neg (by decide), if_neg (by decide)]
      rw [if_neg (by simp [List.all_cons, hcolon])]
  | cons c cs =>
      rw [List.cons_append, intFromToken]
      by_cases hc : c = '-'
      · rw [if_pos hc]
        have : (cs ++ ':' :: ys).all isDigitChar = false := by
          simp [List.all_append, List.all_cons, hcolon]
        simp [this]
      · rw [if_neg hc]
        by_cases hcp : c = '+'
        · rw [if_pos hcp]
          have : (cs ++ ':' :: ys).all isDigitChar = false := by
            simp [List.all_append, List.all_cons, hcolon]
          simp [this]
        · rw [if_neg hcp]
          have : ((c :: cs) ++ ':' :: ys).all isDigitChar = false := by
            simp [List.all_append, List.all_cons, hcolon]
          rw [List.cons_append] at this
          simp [this]

theorem splitAtColon_no_colon (cs : List Char) (h : cs.all okChar = true) :
    splitAtColon cs = none := by
  induction cs with
  | nil => rfl
  | cons c cs2 ih =>
      simp only [List.all_cons, Bool.and_eq_true] at h
      rw [splitAtColon, if_neg (okChar_facts c h.1).2, ih h.2]

theorem splitAtColon_append (xs ys : List Char) (h : xs.all okChar = true) :
    splitAtColon (xs ++ ':' :: ys) = some (xs, ys) := by
  induction xs with
  | nil => simp [splitAtColon]
  | cons c cs ih =>
      simp only [List.all_cons, Bool.and_eq_true] at h
      rw [List.cons_append, splitAtColon, if_neg (okChar_facts c h.1).2, ih h.2]

theorem splitAtDot_eq (cs : List Char) :
    ∀ p q, splitAtDot cs = some (p, q) → cs = p ++ '.' :: q := by
  induction cs with
  | nil => intro p q h; simp [splitAtDot] at h
  | cons c cs2 ih =>
      intro p q h
      rw [splitAtDot] at h
      by_cases hc : c = '.'
      · rw [if_pos hc] at h
        have h4 := Option.some.inj h
        have h5 : ([] : List Char) = p := congrArg Prod.fst h4
        have h6 : cs2 = q := congrArg Prod.snd h4
        rw [← h5, ← h6, hc]
        rfl
      · rw [if_neg hc] at h
        cases hs : splitAtDot cs2 with
        | none => rw [hs] at h; simp at h
        | some pn =>
            rw [hs] at h
            have h4 := Option.some.inj h
            have h5 : c :: pn.1 = p := congrArg Prod.fst h4
            have h6 : pn.2 = q := congrArg Prod.snd h4
            have h7 := ih pn.1 pn.2 (by rw [hs])
            rw [← h5, ← h6, List.cons_append, ← h7]

theorem checkParts_colon (pn : List Char × List Char)
    (h : ':' ∈ pn.1 ∨ ':' ∈ pn.2) : checkParts pn = none := by
  have hcond : ¬ ((pn.1.all isDigitChar && !pn.2.isEmpty &&
      pn.2.all isDigitChar) = true) := by
    intro hc
    have h1 : ∀ x ∈ pn.1, isDigitChar x = true := by
      simp only [Bool.and_eq_true, List.all_eq_true] at hc
      tauto
    have h2 : ∀ x ∈ pn.2, isDigitChar x = true := by
      simp only [Bool.and_eq_true, List.all_eq_true] at hc
      tauto
    rcases h with h | h
    · exact absurd (h1 ':' h) (by decide)
    · exact absurd (h2 ':' h) (by decide)
  rw [checkParts, if_neg hcond]

theorem floatParts_colon (body : List Char) (hb : ':' ∈ body) :
    floatParts body = none := by
  rw [floatParts]
  cases hs : splitAtDot body with
  | none => rfl
  | some pn =>
      have hbody := splitAtDot_eq body pn.1 pn.2 (by rw [hs])
      rw [hbody] at hb
      simp only [List.mem_append, List.mem_cons] at hb
      have h2 : ':' ∈ pn.1 ∨ ':' ∈ pn.2 := by
        rcases hb with h | h | h
        · exact Or.inl h
        · exact absurd h (by decide)
        · exact Or.inr h
      simp [checkParts_colon pn h2]

theorem floatFromToken_colon (xs ys : List Char) :
    floatFromToken (xs ++ ':' :: ys) = none := by
  cases xs with
  | nil =>
      rw [List.nil_append, floatFromToken, if_neg (by decide), if_neg (by decide),
        floatParts_colon (':' :: ys) (by simp)]
      rfl
  | cons c cs =>
      rw [List.cons_append, floatFromToken]
      by_cases h1 : c = '-'
      · rw [if_pos h1, floatParts_colon (cs ++ ':' :: ys) (by simp)]
        rfl
      · rw [if_neg h1]
        by_cases h2 : c = '+'
        · rw [if_pos h2, floatParts_colon (cs ++ ':' :: ys) (by simp)]
          rfl
        · rw [if_neg h2, floatParts_colon (c :: (cs ++ ':' :: ys)) (by simp)]
          rfl

theorem classify_keyword (cur : String) (nm : List Char) :
    classify cur (':' :: nm) = LObj.sym ⟨String.mk nm, "KEYWORD"⟩ := by
  have hint : intFromToken (':' :: nm) = none := by
    have := intFromToken_colon [] nm
    simpa using this
  have hfl : floatFromToken (':' :: nm) = none := by
    have := floatFromToken_colon [] nm
    simpa using this
  rw [classify.eq_def, hint, hfl]
  simp

theorem classify_plain (cur : String) (c : Char) (cs : List Char)
    (hok : (c :: cs).all okChar = true) (hint : intFromToken (c :: cs) = none)
    (hfl : floatFromToken (c :: cs) = none) :
    classify cur (c :: cs) = LObj.sym ⟨String.mk (c :: cs), cur⟩ := by
  have hc : c ≠ ':' := by
    have h1 : okChar c = true := by
      simp only [List.all_cons, Bool.and_eq_true] at hok
      exact hok.1
    exact (okChar_facts c h1).2
  rw [classify.eq_def, hint, hfl]
  simp only [if_neg hc]
  rw [splitAtColon_no_colon _ hok]

theorem classify_qualified (cur : String) (c : Char) (cs nm : List Char)
    (hpok : (c :: cs).all okChar = true) :
    classify cur ((c :: cs) ++ ':' :: nm) =
      LObj.sym ⟨String.mk nm, String.mk (c :: cs)⟩ := by
  have hc : c ≠ ':' := by
    have h1 : okChar c = true := by
      simp only [List.all_cons, Bool.and_eq_true] at hpok
      exact hpok.1
    exact (okChar_facts c h1).2
  have hint := intFromToken_colon (c :: cs) nm
  have hfl := floatFromToken_colon (c :: cs) nm
  rw [List.cons_append] at hint hfl ⊢
  rw [classify.eq_def, hint, hfl]
  simp only [if_neg hc]
  have hsp := splitAtColon_append (c :: cs) nm hpok
  rw [List.cons_append] at hsp
  rw [hsp]

theorem parseStrAux_dquote (rest : List Char) :
    parseStrAux (dquoteChar :: rest) = some ([], rest) := by
  rw [parseStrAux.eq_def]
  simp

theorem parseStrAux_escape_step (d : Char) (ds : List Char) :
    parseStrAux (backslashChar :: d :: ds) =
      match parseStrAux ds with
      | some sr => some (d :: sr.1, sr.2)
      | none => none := by
  rw [parseStrAux.eq_def]
  simp [show ¬ backslashChar = dquoteChar from by decide]

theorem parseStrAux_plain (c : Char) (cs : List Char)
    (h1 : c ≠ dquoteChar) (h2 : c ≠ backslashChar) :
    parseStrAux (c :: cs) =
      match parseStrAux cs with
      | some sr => some (c :: sr.1, sr.2)
      | none => none := by
  rw [parseStrAux.eq_def]
  simp [h1, h2]

theorem parseStrAux_escape (s rest : List Char) :
    parseStrAux (escapeChars s ++ dquoteChar :: rest) = some (s, rest) := by
  induction s with
  | nil =>
      rw [escapeChars, List.nil_append, parseStrAux_dquote]
  | cons c cs ih =>
      rw [escapeChars]
      by_cases h : (c = dquoteChar || c = backslashChar) = true
      · rw [if_pos h]
        rw [List.cons_append, List.cons_append, parseStrAux_escape_step, ih]
      · rw [if_neg h]
        simp only [Bool.or_eq_true, decide_eq_true_eq] at h
        push_neg at h
        rw [List.cons_append, parseStrAux_plain c _ h.1 h.2, ih]

theorem stringMk_data (s : String) : String.mk s.data = s := by
  cases s
  rfl

theorem ne_nil_of_isEmpty_false {α : Type} (l : List α) (h : l.isEmpty = false) :
    l ≠ [] := by
  cases l
  · simp [List.isEmpty] at h
  · simp

theorem wfSym_facts (s : Symbol) (h : wfSym s = true) :
    s.name.data ≠ [] ∧ s.name.data.all okChar = true ∧
    intFromToken s.name.data = none ∧ floatFromToken s.name.data = none ∧
    s.name ≠ "." ∧
    s.pkg.data ≠ [] ∧ s.pkg.data.all okChar = true := by
  simp only [wfSym, okTok, Bool.and_eq_true, Bool.not_eq_true',
    Option.isNone_iff_eq_none, decide_eq_false_iff_not] at h
  refine ⟨ne_nil_of_isEmpty_false _ ?_, ?_, ?_, ?_, ?_,
    ne_nil_of_isEmpty_false _ ?_, ?_⟩ <;> tauto

theorem wfFloat_facts (f : FloatVal) (h : wfFloat f = true) :
    f.ip.all (fun d => d < 10) = true ∧ f.frac ≠ [] ∧
    f.frac.all (fun d => d < 10) = true := by
  simp only [wfFloat, Bool.and_eq_true, Bool.not_eq_true'] at h
  refine ⟨?_, ne_nil_of_isEmpty_false _ ?_, ?_⟩ <;> tauto

theorem digitChars_all_digit (ds : List Nat) (h : ds.all (fun d => d < 10) = true) :
    (digitChars ds).all isDigitChar = true := by
  induction ds with
  | nil => rfl
  | cons d ds2 ih =>
      simp only [List.all_cons, Bool.and_eq_true, decide_eq_true_eq] at h
      simp only [digitChars, List.map_cons, List.all_cons, Bool.and_eq_true]
      exact ⟨digitChar_digit d h.1, by simpa [digitChars] using ih h.2⟩

theorem digitChars_no_dot (ds : List Nat) (h : ds.all (fun d => d < 10) = true) :
    (digitChars ds).all (fun c => !(c = '.')) = true := by
  induction ds with
  | nil => rfl
  | cons d ds2 ih =>
      simp only [List.all_cons, Bool.and_eq_true, decide_eq_true_eq] at h
      simp only [digitChars, List.map_cons, List.all_cons, Bool.and_eq_true]
      refine ⟨?_, by simpa [digitChars] using ih h.2⟩
      simp [digit_ne_dot _ (digitChar_digit d h.1)]

theorem digitVal_digitChars (ds : List Nat) (h : ds.all (fun d => d < 10) = true) :
    (digitChars ds).map digitVal = ds := by
  induction ds with
  | nil => rfl
  | cons d ds2 ih =>
      simp only [List.all_cons, Bool.and_eq_true, decide_eq_true_eq] at h
      have h2 := ih h.2
      simp only [digitChars, List.map_cons] at h2 ⊢
      rw [digitVal_digitChar d h.1, h2]

theorem splitAtDot_append (xs ys : List Char)
    (h : xs.all (fun c => !(c = '.')) = true) :
    splitAtDot (xs ++ '.' :: ys) = some (xs, ys) := by
  induction xs with
  | nil => simp [splitAtDot]
  | cons c cs ih =>
      simp only [List.all_cons, Bool.and_eq_true, Bool.not_eq_true',
        decide_eq_false_iff_not] at h
      rw [List.cons_append, splitAtDot, if_neg h.1, ih h.2]

theorem floatParts_digits (ipds frds : List Nat)
    (hipd : ipds.all (fun d => d < 10) = true)
    (hfr : frds ≠ []) (hfrd : frds.all (fun d => d < 10) = true) :
    floatParts (digitChars ipds ++ '.' :: digitChars frds) = some (ipds, frds) := by
  have hfrne : (digitChars frds).isEmpty = false := by
    cases frds with
    | nil => exact absurd rfl hfr
    | cons d ds => rfl
  have hcond : ((digitChars ipds).all isDigitChar && !(digitChars frds).isEmpty &&
      (digitChars frds).all isDigitChar) = true := by
    simp [digitChars_all_digit ipds hipd, digitChars_all_digit frds hfrd, hfrne]
  rw [floatParts, splitAtDot_append _ _ (digitChars_no_dot ipds hipd)]
  show checkParts (digitChars ipds, digitChars frds) = some (ipds, frds)
  simp only [checkParts]
  rw [if_pos hcond, digitVal_digitChars ipds hipd, digitVal_digitChars frds hfrd]

theorem floatChars_ne_nil (f : FloatVal) : floatChars f ≠ [] := by
  rw [floatChars]
  cases hf : f.neg <;> simp [hf]

theorem floatChars_not_delim (f : FloatVal) (hwf : wfFloat f = true) :
    (floatChars f).all (fun c => !(isDelim c)) = true := by
  obtain ⟨hipd, -, hfrd⟩ := wfFloat_facts f hwf
  have h1 := all_digit_not_delim _ (digitChars_all_digit f.ip hipd)
  have h2 := all_digit_not_delim _ (digitChars_all_digit f.frac hfrd)
  have hd : isDelim '.' = false := by decide
  have hm : isDelim '-' = false := by decide
  rw [floatChars]
  cases hf : f.neg <;>
    simp_all [List.all_append, List.all_cons, List.all_eq_true]

theorem intFromToken_floatChars (f : FloatVal) (hwf : wfFloat f = true) :
    intFromToken (floatChars f) = none := by
  obtain ⟨hipd, -, -⟩ := wfFloat_facts f hwf
  have hdot : isDigitChar '.' = false := by decide
  cases hf : f.neg with
  | true =>
      have h1 : floatChars f = '-' :: (digitChars f.ip ++ '.' :: digitChars f.frac) := by
        simp [floatChars, hf]
      rw [h1, intFromToken, if_pos rfl]
      have hall : (digitChars f.ip ++ '.' :: digitChars f.frac).all isDigitChar = false := by
        simp [List.all_append, List.all_cons, hdot]
      simp [hall]
  | false =>
      cases hi : f.ip with
      | nil =>
          have h1 : floatChars f = '.' :: digitChars f.frac := by
            simp [floatChars, hf, hi, digitChars]
          rw [h1, intFromToken, if_neg (by decide), if_neg (by decide)]
          have hall : ('.' :: digitChars f.frac).all isDigitChar = false := by
            simp [List.all_cons, hdot]
          simp [hall]
      | cons d ds =>
          have hd2 : d < 10 := by
            rw [hi] at hipd
            simp only [List.all_cons, Bool.and_eq_true, decide_eq_true_eq] at hipd
            exact hipd.1
          have h1 : floatChars f =
              Nat.digitChar d :: (digitChars ds ++ '.' :: digitChars f.frac) := by
            simp [floatChars, hf, hi, digitChars]
          rw [h1, intFromToken, if_neg (digit_ne_minus _ (digitChar_digit d hd2)),
            if_neg (digit_ne_plus _ (digitChar_digit d hd2))]
          have hall : (Nat.digitChar d ::
              (digitChars ds ++ '.' :: digitChars f.frac)).all isDigitChar = false := by
            simp [List.all_cons, List.all_append, hdot]
          simp [hall]

theorem floatFromToken_floatChars (f : FloatVal) (hwf : wfFloat f = true) :
    floatFromToken (floatChars f) = some f := by
  obtain ⟨hipd, hfr, hfrd⟩ := wfFloat_facts f hwf
  have hparts := floatParts_digits f.ip f.frac hipd hfr hfrd
  cases hf : f.neg with
  | true =>
      have h1 : floatChars f = '-' :: (digitChars f.ip ++ '.' :: digitChars f.frac) := by
        simp [floatChars, hf]
      rw [h1, floatFromToken, if_pos rfl, hparts]
      show some (FloatVal.mk true f.ip f.frac) = some f
      rw [← hf]
  | false =>
      cases hi : f.ip with
      | nil =>
          have h1 : floatChars f = '.' :: digitChars f.frac := by
            simp [floatChars, hf, hi, digitChars]
          have h2 : ('.' :: digitChars f.frac : List Char) =
              digitChars f.ip ++ '.' :: digitChars f.frac := by
            simp [hi, digitChars]
          rw [h1, floatFromToken, if_neg (by decide), if_neg (by decide), h2, hparts]
          show some (FloatVal.mk false f.ip f.frac) = some f
          rw [← hf]
      | cons d ds =>
          have hd2 : d < 10 := by
            rw [hi] at hipd
            simp only [List.all_cons, Bool.and_eq_true, decide_eq_true_eq] at hipd
            exact hipd.1
          have h1 : floatChars f =
              Nat.digitChar d :: (digitChars ds ++ '.' :: digitChars f.frac) := by
            simp [floatChars, hf, hi, digitChars]
          have h2 : (Nat.digitChar d :: (digitChars ds ++ '.' :: digitChars f.frac)
              : List Char) = digitChars f.ip ++ '.' :: digitChars f.frac := by
            simp [hi, digitChars]
          rw [h1, floatFromToken, if_neg (digit_ne_minus _ (digitChar_digit d hd2)),
            if_neg (digit_ne_plus _ (digitChar_digit d hd2)), h2, hparts]
          show some (FloatVal.mk false f.ip f.frac) = some f
          rw [← hf]

theorem classify_floatChars (cur : String) (f : FloatVal) (hwf : wfFloat f = true) :
    classify cur (floatChars f) = LObj.float f := by
  rw [classify.eq_def, intFromToken_floatChars f hwf, floatFromToken_floatChars f hwf]

theorem parseExpr_token (cur : String) (fuel : Nat) (tok rest : List Char)
    (hne : tok ≠ []) (hall : tok.all (fun c => !(isDelim c)) = true)
    (hrest : startsDelim rest = true) :
    parseExpr cur (fuel + 1) (tok ++ rest) = some (classify cur tok, rest) := by
  cases tok with
  | nil => exact absurd rfl hne
  | cons c cs =>
      have hall2 := hall
      simp only [List.all_cons, Bool.and_eq_true, Bool.not_eq_true'] at hall2
      obtain ⟨hcd, hcsd⟩ := hall2
      obtain ⟨hsp, hlp, hrp, hdq, hnl, htb⟩ := not_delim_facts c hcd
      have hws : isWs c = false := not_ws_of_not_delim c hcd
      have htk : takeToken (c :: (cs ++ rest)) = (c :: cs, rest) := by
        have := takeToken_append (c :: cs) rest hall hrest
        rwa [List.cons_append] at this
      rw [parseExpr, List.cons_append, skipWs_not_ws c _ hws]
      simp [hlp, hdq, hrp, htk]

theorem printTail_starts_delim (cur : String) (d : LObj) (rest : List Char) :
    startsDelim (printTail cur d ++ rest) = true := by
  cases d <;> simp [printTail, startsDelim] <;> decide

theorem esize_pos (v : LObj) : 1 ≤ esize v := by
  cases v <;> simp [esize]

theorem tsize_pos (v : LObj) : 1 ≤ tsize v := by
  cases v <;> simp [tsize]

theorem printObj_head (cur : String) (v : LObj) (hwf : wfObj v = true) :
    ∃ c cs, printObj cur v = c :: cs ∧ isWs c = false ∧ c ≠ ')' ∧
      (c = '.' → ∃ c2 cs2, cs = c2 :: cs2 ∧ isDelim c2 = false) := by
  cases v with
  | nil =>
      exact ⟨'(', [')'], by simp [printObj], by decide, by decide,
        fun h => absurd h (by decide)⟩
  | cons a d =>
      exact ⟨'(', printObj cur a ++ printTail cur d, by simp [printObj], by decide,
        by decide, fun h => absurd h (by decide)⟩
  | str s =>
      exact ⟨dquoteChar, escapeChars s.data ++ [dquoteChar], by simp [printObj],
        by decide, by decide, fun h => absurd h (by decide)⟩
  | int k =>
      cases k with
      | ofNat n =>
          obtain ⟨ha, hne, -⟩ := natChars_spec n
          cases hc : natChars n with
          | nil => exact absurd hc hne
          | cons c cs =>
              rw [hc] at ha
              simp only [List.all_cons, Bool.and_eq_true] at ha
              refine ⟨c, cs, ?_, ?_, ?_, ?_⟩
              · show printObj cur (LObj.int (Int.ofNat n)) = c :: cs
                simp [printObj, intChars, hc]
              · exact not_ws_of_not_delim c (digit_not_delim c ha.1)
              · exact (not_delim_facts c (digit_not_delim c ha.1)).2.2.1
              · intro h; exact absurd h (digit_ne_dot c ha.1)
      | negSucc m =>
          refine ⟨'-', natChars (m + 1), ?_, by decide, by decide,
            fun h => absurd h (by decide)⟩
          simp [printObj, intChars]
  | float fv =>
      have hwff : wfFloat fv = true := by simpa [wfObj] using hwf
      obtain ⟨hipd, hfrne, hfrd⟩ := wfFloat_facts fv hwff
      cases hneg : fv.neg with
      | true =>
          refine ⟨'-', digitChars fv.ip ++ '.' :: digitChars fv.frac, ?_, by decide,
            by decide, fun h => absurd h (by decide)⟩
          simp [printObj, floatChars, hneg]
      | false =>
          cases hi : fv.ip with
          | nil =>
              cases hfc : fv.frac with
              | nil => exact absurd hfc hfrne
              | cons d ds =>
                  have hd : d < 10 := by
                    rw [hfc] at hfrd
                    simp only [List.all_cons, Bool.and_eq_true,
                      decide_eq_true_eq] at hfrd
                    exact hfrd.1
                  refine ⟨'.', digitChars (d :: ds), ?_, by decide, by decide, ?_⟩
                  · simp [printObj, floatChars, hneg, hi, hfc, digitChars]
                  · intro _
                    refine ⟨Nat.digitChar d, digitChars ds, ?_,
                      digit_not_delim _ (digitChar_digit d hd)⟩
                    simp [digitChars]
          | cons d ds =>
              have hd : d < 10 := by
                rw [hi] at hipd
                simp only [List.all_cons, Bool.and_eq_true, decide_eq_true_eq] at hipd
                exact hipd.1
              refine ⟨Nat.digitChar d, digitChars ds ++ '.' :: digitChars fv.frac, ?_,
                not_ws_of_not_delim _ (digit_not_delim _ (digitChar_digit d hd)),
                (not_delim_facts _ (digit_not_delim _ (digitChar_digit d hd))).2.2.1, ?_⟩
              · simp [printObj, floatChars, hneg, hi, digitChars]
              · intro h; exact absurd h (digit_ne_dot _ (digitChar_digit d hd))
  | sym s =>
      have hws : wfSym s = true := by simpa [wfObj] using hwf
      obtain ⟨hnne, hnok, hnint, -, hndot, hpne, hpok⟩ := wfSym_facts s hws
      by_cases hk : s.pkg = "KEYWORD"
      · refine ⟨':', s.name.data, ?_, by decide, by decide, fun h => absurd h (by decide)⟩
        simp [printObj, printSym, hk]
      · by_cases hcur : s.pkg = cur
        · cases hn : s.name.data with
          | nil => exact absurd hn hnne
          | cons c cs =>
              rw [hn] at hnok
              simp only [List.all_cons, Bool.and_eq_true] at hnok
              have hcd := (okChar_facts c hnok.1).1
              refine ⟨c, cs, ?_, not_ws_of_not_delim c hcd,
                (not_delim_facts c hcd).2.2.1, ?_⟩
              · have hps : printSym cur s = s.name.data := by
                  rw [printSym, if_neg hk, if_pos hcur]
                simp [printObj, hps, hn]
              · intro hdot
                cases cs with
                | nil =>
                    exfalso
                    apply hndot
                    apply String.ext
                    rw [hn, hdot]
                | cons c2 cs2 =>
                    have h2 := (okChar_facts c2 (by
                      simp only [List.all_cons, Bool.and_eq_true] at hnok
                      exact hnok.2.1)).1
                    exact ⟨c2, cs2, rfl, h2⟩
        · cases hp : s.pkg.data with
          | nil => exact absurd hp hpne
          | cons c cs =>
              rw [hp] at hpok
              simp only [List.all_cons, Bool.and_eq_true] at hpok
              have hcd := (okChar_facts c hpok.1).1
              refine ⟨c, cs ++ ':' :: s.name.data, ?_, not_ws_of_not_delim c hcd,
                (not_delim_facts c hcd).2.2.1, ?_⟩
              · have hps : printSym cur s = s.pkg.data ++ ':' :: s.name.data := by
                  rw [printSym, if_neg hk, if_neg hcur]
                simp [printObj, hps, hp]
              · intro hdot
                cases cs with
                | nil => exact ⟨':', s.name.data, rfl, by decide⟩
                | cons c2 cs2 =>
                    have h2 := (okChar_facts c2 (by
                      simp only [List.all_cons, Bool.and_eq_true] at hpok
                      exact hpok.2.1)).1
                    exact ⟨c2, cs2 ++ ':' :: s.name.data, rfl, h2⟩

theorem all_okChar_not_delim (cs : List Char) (h : cs.all okChar = true) :
    cs.all (fun c => !(isDelim c)) = true := by
  simp only [List.all_eq_true] at h ⊢
  intro c hc
  simp [(okChar_facts c (h c hc)).1]

theorem parseExpr_open (cur : String) (n : Nat) (cs : List Char) :
    parseExpr cur (n + 1) ('(' :: cs) = parseTail cur n cs := by
  rw [parseExpr, skipWs_not_ws '(' _ (by decide)]
  simp

theorem parseExpr_dquote (cur : String) (n : Nat) (cs : List Char) :
    parseExpr cur (n + 1) (dquoteChar :: cs) =
      match parseStrAux cs with
      | some sr => some (LObj.str (String.mk sr.1), sr.2)
      | none => none := by
  rw [parseExpr, skipWs_not_ws dquoteChar _ (by decide)]
  simp [show ¬ dquoteChar = '(' from by decide]

theorem parseTail_close (cur : String) (n : Nat) (cs : List Char) :
    parseTail cur (n + 1) (')' :: cs) = some (LObj.nil, cs) := by
  rw [parseTail, skipWs_not_ws ')' _ (by decide)]
  simp

theorem parseTail_step (cur : String) (n : Nat) (c : Char) (cs : List Char)
    (hws : isWs c = false) (hrp : c ≠ ')')
    (hdot : (decide (c = '.') && startsDelim cs) = false) :
    parseTail cur (n + 1) (c :: cs) =
      match parseExpr cur n (c :: cs) with
      | some ar =>
          match parseTail cur n ar.2 with
          | some dr => some (LObj.cons ar.1 dr.1, dr.2)
          | none => none
      | none => none := by
  rw [parseTail, skipWs_not_ws c _ hws]
  simp [hrp, hdot]

theorem parseTail_dot (cur : String) (n : Nat) (cs : List Char)
    (hdelim : startsDelim cs = true) :
    parseTail cur (n + 1) ('.' :: cs) =
      match parseExpr cur n cs with
      | some xr =>
          match skipWs xr.2 with
          | c2 :: r2 => if c2 = ')' then some (xr.1, r2) else none
          | [] => none
      | none => none := by
  rw [parseTail, skipWs_not_ws '.' _ (by decide)]
  simp [show ('.' : Char) ≠ ')' from by decide, hdelim]

theorem parseTail_dotted_atom (cur : String) (n : Nat) (x : LObj) (rest : List Char)
    (hwf : wfObj x = true) (hsz : esize x ≤ n)
    (hE : ∀ v r2, wfObj v = true → esize v ≤ n → startsDelim r2 = true →
      parseExpr cur n (printObj cur v ++ r2) = some (v, r2)) :
    parseTail cur (n + 1) ((' ' :: '.' :: ' ' :: (printObj cur x ++ [')'])) ++ rest) =
      some (x, rest) := by
  have h0 : (' ' :: '.' :: ' ' :: (printObj cur x ++ [')'])) ++ rest =
      ' ' :: '.' :: ' ' :: ((printObj cur x ++ [')']) ++ rest) := by simp
  rw [h0, parseTail_ws cur (n + 1) ' ' _ (by decide)]
  rw [parseTail_dot cur n _ (by simp [startsDelim, isDelim])]
  rw [parseExpr_ws cur n ' ' _ (by decide)]
  have h2 : (printObj cur x ++ [')']) ++ rest = printObj cur x ++ (')' :: rest) := by
    simp
  rw [h2, hE x (')' :: rest) hwf hsz (by simp [startsDelim, isDelim])]
  simp [skipWs_not_ws ')' rest (by decide)]

theorem parse_print (cur : String) : ∀ fuel : Nat,
    (∀ v rest, wfObj v = true → esize v ≤ fuel → startsDelim rest = true →
      parseExpr cur fuel (printObj cur v ++ rest) = some (v, rest)) ∧
    (∀ t rest, wfObj t = true → tsize t ≤ fuel →
      parseTail cur fuel (printTail cur t ++ rest) = some (t, rest)) := by
  intro fuel
  induction fuel with
  | zero =>
      constructor
      · intro v rest _ hsz _
        exact absurd hsz (by have := esize_pos v; omega)
      · intro t rest _ hsz
        exact absurd hsz (by have := tsize_pos t; omega)
  | succ n ih =>
      obtain ⟨ihE, ihT⟩ := ih
      constructor
      · intro v rest hwf hsz hrest
        cases v with
        | nil =>
            have h1 : printObj cur LObj.nil ++ rest = '(' :: (')' :: rest) := by
              simp [printObj]
            have h2 : esize LObj.nil = 2 := by simp [esize]
            obtain ⟨m, rfl⟩ : ∃ m, n = m + 1 := ⟨n - 1, by omega⟩
            rw [h1, parseExpr_open, parseTail_close]
        | int k =>
            have h1 : printObj cur (LObj.int k) = intChars k := by simp [printObj]
            rw [h1, parseExpr_token cur n (intChars k) rest (intChars_ne_nil k)
              (intChars_not_delim k) hrest, classify_intChars]
        | str s =>
            have h1 : printObj cur (LObj.str s) ++ rest =
                dquoteChar :: (escapeChars s.data ++ dquoteChar :: rest) := by
              simp [printObj]
            rw [h1, parseExpr_dquote, parseStrAux_escape]
        | float fv =>
            have hwff : wfFloat fv = true := by simpa [wfObj] using hwf
            have h1 : printObj cur (LObj.float fv) = floatChars fv := by
              simp [printObj]
            rw [h1, parseExpr_token cur n (floatChars fv) rest (floatChars_ne_nil fv)
              (floatChars_not_delim fv hwff) hrest, classify_floatChars cur fv hwff]
        | sym s =>
            have hws2 : wfSym s = true := by simpa [wfObj] using hwf
            obtain ⟨hnne, hnok, hnint, hnfl, hndot, hpne, hpok⟩ := wfSym_facts s hws2
            by_cases hk : s.pkg = "KEYWORD"
            · have h1 : printObj cur (LObj.sym s) = ':' :: s.name.data := by
                simp [printObj, printSym, hk]
              have hall : (':' :: s.name.data).all (fun c => !(isDelim c)) = true := by
                simp only [List.all_cons, Bool.and_eq_true, Bool.not_eq_true']
                exact ⟨by decide, all_okChar_not_delim _ hnok⟩
              rw [h1, parseExpr_token cur n _ rest (by simp) hall hrest,
                classify_keyword, stringMk_data, ← hk]
            · by_cases hcur : s.pkg = cur
              · have hps : printSym cur s = s.name.data := by
                  rw [printSym, if_neg hk, if_pos hcur]
                have h1 : printObj cur (LObj.sym s) = s.name.data := by
                  simp [printObj, hps]
                cases hn : s.name.data with
                | nil => exact absurd hn hnne
                | cons c cs =>
                    rw [hn] at hnok hnint hnfl
                    rw [h1, hn]
                    rw [parseExpr_token cur n _ rest (by simp)
                      (all_okChar_not_delim _ hnok) hrest]
                    rw [classify_plain cur c cs hnok hnint hnfl]
                    rw [← hn, stringMk_data, ← hcur]
              · have hps : printSym cur s = s.pkg.data ++ ':' :: s.name.data := by
                  rw [printSym, if_neg hk, if_neg hcur]
                have h1 : printObj cur (LObj.sym s) = s.pkg.data ++ ':' :: s.name.data := by
                  simp [printObj, hps]
                cases hp : s.pkg.data with
                | nil => exact absurd hp hpne
                | cons c cs =>
                    rw [hp] at hpok
                    have hall : ((c :: cs) ++ ':' :: s.name.data).all
                        (fun c => !(isDelim c)) = true := by
                      have hone := all_okChar_not_delim _ hpok
                      have htwo := all_okChar_not_delim _ hnok
                      have hcolon : isDelim ':' = false := by decide
                      simp only [List.all_append, List.all_cons, Bool.and_eq_true,
                        Bool.not_eq_true'] at hone htwo ⊢
                      tauto
                    rw [h1, hp]
                    rw [parseExpr_token cur n _ rest (by simp) hall hrest]
                    rw [classify_qualified cur c cs s.name.data hpok]
                    rw [← hp, stringMk_data, stringMk_data]
        | cons a d =>
            have hwf2 : wfObj a = true ∧ wfObj d = true := by
              simpa [wfObj, Bool.and_eq_true] using hwf
            have he : esize (LObj.cons a d) = esize a + tsize d + 2 := by simp [esize]
            have ht : tsize (LObj.cons a d) = esize a + tsize d + 1 := by simp [tsize]
            have h1 : printObj cur (LObj.cons a d) ++ rest =
                '(' :: ((printObj cur a ++ printTail cur d) ++ rest) := by
              simp [printObj]
            rw [h1, parseExpr_open]
            have h2 : (printObj cur a ++ printTail cur d) ++ rest =
                printObj cur a ++ (printTail cur d ++ rest) := by simp
            rw [h2]
            have h4 : printTail cur (LObj.cons a d) ++ rest =
                ' ' :: (printObj cur a ++ (printTail cur d ++ rest)) := by
              simp [printTail]
            have h3 : parseTail cur n (printObj cur a ++ (printTail cur d ++ rest)) =
                parseTail cur n (printTail cur (LObj.cons a d) ++ rest) := by
              rw [h4, parseTail_ws cur n ' ' _ (by decide)]
            rw [h3]
            exact ihT (LObj.cons a d) rest
              (by simp [wfObj, hwf2.1, hwf2.2]) (by omega)
      · intro t rest hwf hsz
        cases t with
        | nil =>
            have h1 : printTail cur LObj.nil ++ rest = ')' :: rest := by
              simp [printTail]
            rw [h1, parseTail_close]
        | cons a d =>
            have hwf2 : wfObj a = true ∧ wfObj d = true := by
              simpa [wfObj, Bool.and_eq_true] using hwf
            have ht : tsize (LObj.cons a d) = esize a + tsize d + 1 := by simp [tsize]
            have hsza : esize a ≤ n := by have := tsize_pos d; omega
            have hszd : tsize d ≤ n := by have := esize_pos a; omega
            obtain ⟨c, cs, hpr, hws, hrp, hdotf⟩ := printObj_head cur a hwf2.1
            have h1 : printTail cur (LObj.cons a d) ++ rest =
                ' ' :: (printObj cur a ++ (printTail cur d ++ rest)) := by
              simp [printTail]
            rw [h1, parseTail_ws cur (n + 1) ' ' _ (by decide)]
            have hdot : (decide (c = '.') &&
                startsDelim (cs ++ (printTail cur d ++ rest))) = false := by
              by_cases hd : c = '.'
              · obtain ⟨c2, cs2, hcs, hc2⟩ := hdotf hd
                rw [hcs]
                simp [startsDelim, hc2]
              · simp [hd]
            rw [hpr, List.cons_append, parseTail_step cur n c _ hws hrp hdot]
            rw [← List.cons_append, ← hpr]
            rw [ihE a (printTail cur d ++ rest) hwf2.1 hsza
              (printTail_starts_delim cur d rest)]
            simp [ihT d rest hwf2.2 hszd]
        | int k =>
            have h2 : tsize (LObj.int k) = esize (LObj.int k) + 1 := by simp [tsize]
            have h1 : printTail cur (LObj.int k) ++ rest =
                (' ' :: '.' :: ' ' :: (printObj cur (LObj.int k) ++ [')'])) ++ rest := by
              simp [printTail]
            rw [h1]
            exact parseTail_dotted_atom cur n _ rest (by simp [wfObj]) (by omega) ihE
        | str s =>
            have h2 : tsize (LObj.str s) = esize (LObj.str s) + 1 := by simp [tsize]
            have h1 : printTail cur (LObj.str s) ++ rest =
                (' ' :: '.' :: ' ' :: (printObj cur (LObj.str s) ++ [')'])) ++ rest := by
              simp [printTail]
            rw [h1]
            exact parseTail_dotted_atom cur n _ rest (by simp [wfObj]) (by omega) ihE
        | float fv =>
            have h2 : tsize (LObj.float fv) = esize (LObj.float fv) + 1 := by
              simp [tsize]
            have h1 : printTail cur (LObj.float fv) ++ rest =
                (' ' :: '.' :: ' ' :: (printObj cur (LObj.float fv) ++ [')'])) ++ rest := by
              simp [printTail]
            rw [h1]
            exact parseTail_dotted_atom cur n _ rest hwf (by omega) ihE
        | sym s =>
            have hw2 : wfObj (LObj.sym s) = true := hwf
            have h2 : tsize (LObj.sym s) = esize (LObj.sym s) + 1 := by simp [tsize]
            have h1 : printTail cur (LObj.sym s) ++ rest =
                (' ' :: '.' :: ' ' :: (printObj cur (LObj.sym s) ++ [')'])) ++ rest := by
              simp [printTail]
            rw [h1]
            exact parseTail_dotted_atom cur n _ rest hw2 (by omega) ihE

theorem printTail_atom_length (cur : String) (x : LObj)
    (h : printTail cur x = ' ' :: '.' :: ' ' :: (printObj cur x ++ [')'])) :
    (printTail cur x).length = (printObj cur x).length + 4 := by
  rw [h]
  simp [List.length_append]

theorem size_bound (cur : String) (v : LObj) :
    (wfObj v = true → esize v ≤ 2 * (printObj cur v).length) ∧
    (wfObj v = true → tsize v ≤ 2 * (printTail cur v).length) := by
  induction v with
  | nil =>
      refine ⟨fun _ => ?_, fun _ => ?_⟩
      · have h1 : printObj cur LObj.nil = ['(', ')'] := by simp [printObj]
        have h2 : esize LObj.nil = 2 := by simp [esize]
        rw [h1, h2]
        simp
      · have h1 : printTail cur LObj.nil = [')'] := by simp [printTail]
        have h2 : tsize LObj.nil = 1 := by simp [tsize]
        rw [h1, h2]
        simp
  | int k =>
      have hlen : 1 ≤ (printObj cur (LObj.int k)).length := by
        have h1 : printObj cur (LObj.int k) = intChars k := by simp [printObj]
        rw [h1]
        cases hc : intChars k with
        | nil => exact absurd hc (intChars_ne_nil k)
        | cons c cs => simp
      have he : esize (LObj.int k) = 2 := by simp [esize]
      have ht : tsize (LObj.int k) = 3 := by simp [tsize, esize]
      have hpt := printTail_atom_length cur (LObj.int k) (by simp [printTail])
      exact ⟨fun _ => by omega, fun _ => by omega⟩
  | float fv =>
      have hlen : 1 ≤ (printObj cur (LObj.float fv)).length := by
        have h1 : printObj cur (LObj.float fv) = floatChars fv := by simp [printObj]
        rw [h1]
        cases hc : floatChars fv with
        | nil => exact absurd hc (floatChars_ne_nil fv)
        | cons c cs => simp
      have he : esize (LObj.float fv) = 2 := by simp [esize]
      have ht : tsize (LObj.float fv) = 3 := by simp [tsize, esize]
      have hpt := printTail_atom_length cur (LObj.float fv) (by simp [printTail])
      exact ⟨fun _ => by omega, fun _ => by omega⟩
  | str s =>
      have hlen : 2 ≤ (printObj cur (LObj.str s)).length := by
        have h1 : printObj cur (LObj.str s) =
            dquoteChar :: (escapeChars s.data ++ [dquoteChar]) := by
          simp [printObj]
        rw [h1]
        simp [List.length_append]
      have he : esize (LObj.str s) = 2 := by simp [esize]
      have ht : tsize (LObj.str s) = 3 := by simp [tsize, esize]
      have hpt := printTail_atom_length cur (LObj.str s) (by simp [printTail])
      exact ⟨fun _ => by omega, fun _ => by omega⟩
  | sym s =>
      have hkey : wfObj (LObj.sym s) = true →
          1 ≤ (printObj cur (LObj.sym s)).length := by
        intro h
        have hws2 : wfSym s = true := by simpa [wfObj] using h
        obtain ⟨hnne, -, -, -, -, hpne, -⟩ := wfSym_facts s hws2
        have h1 : printObj cur (LObj.sym s) = printSym cur s := by simp [printObj]
        rw [h1, printSym]
        split
        · simp
        · split
          · cases hn : s.name.data with
            | nil => exact absurd hn hnne
            | cons c cs => simp
          · cases hp2 : s.pkg.data with
            | nil => exact absurd hp2 hpne
            | cons c cs => simp
      have he : esize (LObj.sym s) = 2 := by simp [esize]
      have ht : tsize (LObj.sym s) = 3 := by simp [tsize, esize]
      have hpt := printTail_atom_length cur (LObj.sym s) (by simp [printTail])
      refine ⟨fun h => ?_, fun h => ?_⟩
      · have := hkey h
        omega
      · have := hkey h
        omega
  | cons a d iha ihd =>
      have hpe : (printObj cur (LObj.cons a d)).length =
          (printObj cur a).length + (printTail cur d).length + 1 := by
        have h1 : printObj cur (LObj.cons a d) =
            '(' :: (printObj cur a ++ printTail cur d) := by simp [printObj]
        rw [h1]
        simp [List.length_append]
      have hpt : (printTail cur (LObj.cons a d)).length =
          (printObj cur a).length + (printTail cur d).length + 1 := by
        have h1 : printTail cur (LObj.cons a d) =
            ' ' :: (printObj cur a ++ printTail cur d) := by simp [printTail]
        rw [h1]
        simp [List.length_append]
      have he : esize (LObj.cons a d) = esize a + tsize d + 2 := by simp [esize]
      have ht : tsize (LObj.cons a d) = esize a + tsize d + 1 := by simp [tsize]
      refine ⟨fun h => ?_, fun h => ?_⟩
      · have h2 : wfObj a = true ∧ wfObj d = true := by
          simpa [wfObj, Bool.and_eq_true] using h
        have ha := iha.1 h2.1
        have hd := ihd.2 h2.2
        omega
      · have h2 : wfObj a = true ∧ wfObj d = true := by
          simpa [wfObj, Bool.and_eq_true] using h
        have ha := iha.1 h2.1
        have hd := ihd.2 h2.2
        omega

/-- C7: for every atom and list structure representable in both syntaxes
(reader-level values, so neither quote wrappers nor call-form tuples),
parsing the writer serialization returns a structurally equal value and
consumes the whole input. -/
theorem write_read_roundtrip (cur : String) (v : LObj) (hwf : wfObj v = true) :
    readObj cur (printObj cur v) = some (v, []) := by
  rw [readObj]
  have hb := (size_bound cur v).1 hwf
  have hmain := (parse_print cur (2 * (printObj cur v).length + 2)).1 v [] hwf
    (by omega) rfl
  rwa [List.append_nil] at hmain

/-- Witness for C7: a concrete dotted-free list of an integer, a symbol and
a string round-trips through the writer and the reader. -/
theorem write_read_roundtrip_witness :
    wfObj (LObj.cons (LObj.int (-12))
      (LObj.cons (LObj.float ⟨false, [3], [2, 5]⟩)
        (LObj.cons (LObj.sym ⟨"FOO", "CL-USER"⟩)
          (LObj.cons (LObj.str "a b") LObj.nil)))) = true ∧
    readObj "CL-USER" (printObj "CL-USER" (LObj.cons (LObj.int (-12))
      (LObj.cons (LObj.float ⟨false, [3], [2, 5]⟩)
        (LObj.cons (LObj.sym ⟨"FOO", "CL-USER"⟩)
          (LObj.cons (LObj.str "a b") LObj.nil))))) =
      some (LObj.cons (LObj.int (-12))
        (LObj.cons (LObj.float ⟨false, [3], [2, 5]⟩)
          (LObj.cons (LObj.sym ⟨"FOO", "CL-USER"⟩)
            (LObj.cons (LObj.str "a b") LObj.nil))), []) :=
  ⟨by decide, write_read_roundtrip "CL-USER" _ (by decide)⟩

end Cl4py
